import Mathlib

/-!
Shallow embedding of the metasinf header-only library (src/include/metasinf)
and proofs about its operators.

Conventions of the embedding:
* C++ `double`/float fitness and probability values become `ℚ`.
* The pseudorandom engine becomes an explicit stream of raw draws (`Rng`):
  `std::uniform_int_distribution(lo, hi)` maps a raw natural into `[lo, hi]`,
  `std::uniform_real_distribution(0, t)` scales a raw unit rational by `t`,
  and `std::bernoulli_distribution(p)` compares a raw unit rational with `p`.
  Universal quantification over `Rng` models "for every pseudorandom stream".
* In-place mutation of vectors/populations becomes explicit state passing:
  each operator returns the updated collections together with the advanced
  random stream.
-/

namespace Metasinf

/-- Explicit pseudorandom source: a stream of raw unit-interval rationals and
a stream of raw naturals. -/
structure Rng where
  rats : List ℚ
  nats : List ℕ

/-- Draw the next raw rational (unit-interval draw); 0 once exhausted. -/
def nextRat (g : Rng) : ℚ × Rng :=
  match g.rats with
  | [] => (0, g)
  | r :: rs => (r, { g with rats := rs })

/-- Draw the next raw natural; 0 once exhausted. -/
def nextNat (g : Rng) : ℕ × Rng :=
  match g.nats with
  | [] => (0, g)
  | n :: ns => (n, { g with nats := ns })

/-- `std::uniform_int_distribution<size_t>(lo, hi)`: the raw natural reduced
into the support `[lo, hi]`. -/
def uniformInt (lo hi : ℕ) (g : Rng) : ℕ × Rng :=
  let p := nextNat g
  (lo + p.1 % (hi + 1 - lo), p.2)

/-- `std::uniform_real_distribution<F>(0, total)`: the raw unit rational
scaled by `total`. -/
def uniformReal (total : ℚ) (g : Rng) : ℚ × Rng :=
  let p := nextRat g
  (p.1 * total, p.2)

/-- `std::bernoulli_distribution(p)`: true iff the raw unit draw is `< p`. -/
def bernoulli (p : ℚ) (g : Rng) : Bool × Rng :=
  let q := nextRat g
  (decide (q.1 < p), q.2)

/-- A stream is well formed when every raw rational lies in `[0, 1)`. -/
def Rng.WF (g : Rng) : Prop := ∀ r ∈ g.rats, 0 ≤ r ∧ r < 1

/-! ### population.h -/

/-- `snf::Individual<T, F>`: a candidate value paired with a fitness score.
A negative fitness is the dirty sentinel. -/
structure Individual (T : Type) where
  data : T
  fitness : ℚ
deriving DecidableEq, Repr

/-- `Individual::is_dirty`. -/
def Individual.isDirty (x : Individual T) : Bool := decide (x.fitness < 0)

/-- `Individual::mark_dirty`. -/
def Individual.markDirty (x : Individual T) : Individual T := { x with fitness := -1 }

instance [Inhabited T] : Inhabited (Individual T) := ⟨⟨default, -1⟩⟩

/-- `snf::Population<T, F> = std::vector<Individual<T, F>>`. -/
abbrev Population (T : Type) := List (Individual T)

/-- `snf::SelectionSize`: absolute count (when `count > 0`) or percentage. -/
structure SelectionSize where
  count : ℕ
  percentage : ℚ

/-- `SelectionSize::operator()(size)`: resolve the policy against a source
size.  `static_cast<size_t>(std::ceil(percentage * size))` becomes
`Int.toNat ⌈percentage * size⌉`. -/
def SelectionSize.apply (s : SelectionSize) (size : ℕ) : ℕ :=
  if 0 < s.count then min s.count size
  else (Int.toNat ⌈s.percentage * (size : ℚ)⌉)

/-- `snf::Evaluate`: recompute the fitness of every dirty individual, in
order, threading the random stream through the evaluator. -/
def Evaluate (func : T → Rng → ℚ × Rng) : Population T → Rng → Population T × Rng
  | [], g => ([], g)
  | x :: xs, g =>
    if x.isDirty then
      let p := func x.data g
      let q := Evaluate func xs p.2
      ({ x with fitness := p.1 } :: q.1, q.2)
    else
      let q := Evaluate func xs g
      (x :: q.1, q.2)

/-! ### List index helpers -/

theorem getD_set_self {α : Type u} (l : List α) (i : ℕ) (a d : α)
    (h : i < l.length) : (l.set i a).getD i d = a := by
  induction l generalizing i with
  | nil => simp at h
  | cons x xs ih =>
    cases i with
    | zero => rfl
    | succ k => simpa using ih k (by simpa using h)

theorem getD_set_ne {α : Type u} (l : List α) (i j : ℕ) (a d : α)
    (h : i ≠ j) : (l.set i a).getD j d = l.getD j d := by
  induction l generalizing i j with
  | nil => simp [List.set]
  | cons x xs ih =>
    cases i with
    | zero =>
      cases j with
      | zero => exact absurd rfl h
      | succ m => rfl
    | succ k =>
      cases j with
      | zero => rfl
      | succ m => simpa using ih k m (by omega)

/-! ### Sorting descending by fitness

`std::sort(v.begin(), v.end(), std::greater<Individual<T, F>>())` sorts the
population so that fitness values are non-increasing.  `std::sort` leaves the
relative order of fitness ties unspecified; the embedding fixes one correct
such sort (insertion sort with the non-strict descending comparison). -/

/-- The descending comparison induced by `Individual::operator>` (ties
allowed, as any `std::sort` comparator closure). -/
def fitGe (a b : Individual T) : Prop := b.fitness ≤ a.fitness

instance : DecidableRel (@fitGe T) :=
  fun a b => inferInstanceAs (Decidable (b.fitness ≤ a.fitness))

instance : IsTotal (Individual T) fitGe := ⟨fun a b => le_total b.fitness a.fitness⟩

instance : IsTrans (Individual T) fitGe := ⟨fun _ _ _ h1 h2 => le_trans h2 h1⟩

/-- Sort a population descending by fitness. -/
def sortDesc (pop : Population T) : Population T := List.insertionSort fitGe pop

theorem sortDesc_perm (pop : Population T) : List.Perm (sortDesc pop) pop :=
  List.perm_insertionSort fitGe pop

theorem sortDesc_sorted (pop : Population T) : List.Sorted fitGe (sortDesc pop) :=
  List.sorted_insertionSort fitGe pop

/-! ### replacement.h -/

/-- `std::vector::resize(n)`: truncate or pad with a default value. -/
def resizeVec (l : List α) (n : ℕ) (d : α) : List α :=
  l.take n ++ List.replicate (n - l.length) d

/-- `snf::ReplacementElitist`: resolve the elite count against the current
destination size, sort the destination descending by fitness, truncate it to
the elite, then append the whole offspring pool (`src`). -/
def ReplacementElitist [Inhabited T] (size : SelectionSize)
    (src dst : Population T) : Population T :=
  let count := size.apply dst.length
  resizeVec (sortDesc dst) count default ++ src

/-! ### Claim C7: SelectionSize resolution -/

/-- C7: `SelectionSize` resolution returns `min(count, size)` in
absolute-count mode and `⌈percentage * size⌉` in percentage mode
(percentage in `[0, 1]`), never more than the active mode prescribes. -/
theorem selectionSize_apply_modes (s : SelectionSize) (n : ℕ) :
    (0 < s.count → s.apply n = min s.count n) ∧
    (s.count = 0 → 0 ≤ s.percentage → s.percentage ≤ 1 →
      ((s.apply n : ℤ) = ⌈s.percentage * (n : ℚ)⌉ ∧ s.apply n ≤ n)) := by
  constructor
  · intro h
    simp [SelectionSize.apply, h]
  · intro h0 hp0 hp1
    have hcount : ¬ 0 < s.count := by omega
    have hceil0 : (0 : ℤ) ≤ ⌈s.percentage * (n : ℚ)⌉ := by
      apply Int.ceil_nonneg
      positivity
    constructor
    · simp only [SelectionSize.apply, if_neg hcount]
      exact Int.toNat_of_nonneg hceil0
    · simp only [SelectionSize.apply, if_neg hcount]
      have hle : ⌈s.percentage * (n : ℚ)⌉ ≤ (n : ℤ) := by
        have : s.percentage * (n : ℚ) ≤ (n : ℚ) := by
          calc s.percentage * (n : ℚ) ≤ 1 * (n : ℚ) := by
                apply mul_le_mul_of_nonneg_right hp1
                positivity
            _ = (n : ℚ) := one_mul _
        calc ⌈s.percentage * (n : ℚ)⌉ ≤ ⌈(n : ℚ)⌉ := Int.ceil_le_ceil this
          _ = (n : ℤ) := by simp
      omega

theorem selectionSize_apply_le (s : SelectionSize) (n : ℕ)
    (hp : s.percentage ≤ 1) : s.apply n ≤ n := by
  unfold SelectionSize.apply
  split
  · omega
  · have hle : ⌈s.percentage * (n : ℚ)⌉ ≤ (n : ℤ) := by
      have : s.percentage * (n : ℚ) ≤ (n : ℚ) := by
        calc s.percentage * (n : ℚ) ≤ 1 * (n : ℚ) := by
              apply mul_le_mul_of_nonneg_right hp
              positivity
          _ = (n : ℚ) := one_mul _
      calc ⌈s.percentage * (n : ℚ)⌉ ≤ ⌈(n : ℚ)⌉ := Int.ceil_le_ceil this
        _ = (n : ℤ) := by simp
    omega

/-! ### Claim C3: elitist replacement -/

/-- C3: elitist replacement produces `elite ++ pool` where the elite has
exactly `elite_count = SelectionSize(pre-replacement destination size)`
individuals, is sorted descending by fitness, and together with the dropped
remainder is a permutation of the pre-replacement destination, every elite
fitness dominating every dropped fitness; total size is
`elite_count + pool size`. -/
theorem replacementElitist_spec [Inhabited T] (size : SelectionSize)
    (src dst : Population T) (hp : size.percentage ≤ 1) :
    ∃ elite rest : Population T,
      ReplacementElitist size src dst = elite ++ src ∧
      elite.length = size.apply dst.length ∧
      (ReplacementElitist size src dst).length = size.apply dst.length + src.length ∧
      List.Perm (elite ++ rest) dst ∧
      List.Sorted fitGe elite ∧
      ∀ a ∈ elite, ∀ b ∈ rest, b.fitness ≤ a.fitness := by
  have hsortlen : (sortDesc dst).length = dst.length := (sortDesc_perm dst).length_eq
  have hcle : size.apply dst.length ≤ (sortDesc dst).length := by
    rw [hsortlen]
    exact selectionSize_apply_le size dst.length hp
  have hz : size.apply dst.length - (sortDesc dst).length = 0 := by omega
  have hmain : ReplacementElitist size src dst =
      (sortDesc dst).take (size.apply dst.length) ++ src := by
    simp [ReplacementElitist, resizeVec, hz]
  refine ⟨(sortDesc dst).take (size.apply dst.length),
    (sortDesc dst).drop (size.apply dst.length), hmain, ?_, ?_, ?_, ?_, ?_⟩
  · simp [List.length_take]
    omega
  · rw [hmain]
    simp [List.length_take]
    omega
  · rw [List.take_append_drop]
    exact sortDesc_perm dst
  · exact (sortDesc_sorted dst).take
  · intro a ha b hb
    exact (sortDesc_sorted dst).rel_of_mem_take_of_mem_drop ha hb

/-- Witness for C3: keep the best 1 of a 2-individual destination and append
a 1-individual pool. -/
theorem replacementElitist_spec_witness :
    ReplacementElitist ⟨1, 0⟩ [⟨(), 2⟩] [⟨(), 1⟩, ⟨(), 3⟩] =
      ([⟨(), 3⟩, ⟨(), 2⟩] : Population Unit) ∧
    (∃ elite rest : Population Unit,
      ReplacementElitist ⟨1, 0⟩ [⟨(), 2⟩] [⟨(), 1⟩, ⟨(), 3⟩] = elite ++ [⟨(), 2⟩] ∧
      elite.length = SelectionSize.apply ⟨1, 0⟩ 2 ∧
      (ReplacementElitist ⟨1, 0⟩ [⟨(), 2⟩] [⟨(), 1⟩, ⟨(), 3⟩]).length =
        SelectionSize.apply ⟨1, 0⟩ 2 + 1 ∧
      List.Perm (elite ++ rest) [⟨(), 1⟩, ⟨(), 3⟩] ∧
      List.Sorted fitGe elite ∧
      ∀ a ∈ elite, ∀ b ∈ rest, b.fitness ≤ a.fitness) :=
  ⟨by decide, replacementElitist_spec ⟨1, 0⟩ [⟨(), 2⟩] [⟨(), 1⟩, ⟨(), 3⟩] (by norm_num)⟩

/-- Witness for C7 at `count = 5` against size 3, and at `percentage = 2/3`
against size 6. -/
theorem selectionSize_apply_modes_witness :
    (SelectionSize.mk 5 0).apply 3 = min 5 3 ∧
    ((SelectionSize.mk 0 (2/3)).apply 6 : ℤ) = ⌈(2/3 : ℚ) * (6 : ℚ)⌉ := by
  refine ⟨(selectionSize_apply_modes ⟨5, 0⟩ 3).1 (by norm_num), ?_⟩
  exact ((selectionSize_apply_modes ⟨0, 2/3⟩ 6).2 rfl (by norm_num) (by norm_num)).1

/-! ### termination.h: Or / And combinators

`snf::TerminationOr` / `snf::TerminationAnd` hold a tuple of termination
predicates and recursively fold them with `||` / `&&` via `Check`; the
heterogeneous tuple becomes a list of predicate functions over the shared
random stream.  (`operator()` passes the population and rng into `Check` by
value, so each member runs on a forwarded copy of the stream; the fold below
is that `Check` chain.) -/

/-- The `TerminationOr::Check` recursion: `member₀ || Check₁ || ...`. -/
def TerminationOrCheck (fs : List (Population T → Rng → Bool × Rng))
    (pop : Population T) (g : Rng) : Bool × Rng :=
  match fs with
  | [] => (false, g)
  | f :: rest =>
    let p := f pop g
    if p.1 then (true, p.2) else TerminationOrCheck rest pop p.2

/-- The `TerminationAnd::Check` recursion: `member₀ && Check₁ && ...`. -/
def TerminationAndCheck (fs : List (Population T → Rng → Bool × Rng))
    (pop : Population T) (g : Rng) : Bool × Rng :=
  match fs with
  | [] => (true, g)
  | f :: rest =>
    let p := f pop g
    if p.1 then TerminationAndCheck rest pop p.2 else (false, p.2)

/-! ### Claim C8: Or/And short-circuit combinators -/

/-- C8: over the empty member set, Or yields false and And yields true; both
evaluate members left-to-right, Or stopping at the first true member (the
result does not involve later members at all), And stopping at the first
false member; otherwise evaluation continues on the advanced stream. -/
theorem termination_or_and_shortcircuit (T : Type) :
    (∀ (pop : Population T) (g : Rng),
      TerminationOrCheck [] pop g = (false, g) ∧
      TerminationAndCheck [] pop g = (true, g)) ∧
    (∀ (f : Population T → Rng → Bool × Rng) (fs : List (Population T → Rng → Bool × Rng))
        (pop : Population T) (g g1 : Rng),
      (f pop g = (true, g1) →
        TerminationOrCheck (f :: fs) pop g = (true, g1) ∧
        TerminationAndCheck (f :: fs) pop g = TerminationAndCheck fs pop g1) ∧
      (f pop g = (false, g1) →
        TerminationOrCheck (f :: fs) pop g = TerminationOrCheck fs pop g1 ∧
        TerminationAndCheck (f :: fs) pop g = (false, g1))) := by
  refine ⟨fun pop g => ⟨rfl, rfl⟩, fun f fs pop g g1 => ⟨fun h => ?_, fun h => ?_⟩⟩
  · constructor <;> simp [TerminationOrCheck, TerminationAndCheck, h]
  · constructor <;> simp [TerminationOrCheck, TerminationAndCheck, h]

/-- Witness for C8: a true member short-circuits Or past a diverging-looking
second member; a false member short-circuits And. -/
theorem termination_or_and_shortcircuit_witness :
    (TerminationOrCheck ([] : List (Population Unit → Rng → Bool × Rng)) [] ⟨[], []⟩
        = (false, ⟨[], []⟩) ∧
      TerminationAndCheck ([] : List (Population Unit → Rng → Bool × Rng)) [] ⟨[], []⟩
        = (true, ⟨[], []⟩)) ∧
    (TerminationOrCheck
        [fun _ g => (true, g), fun _ g => (false, g)] ([] : Population Unit) ⟨[], []⟩
        = (true, ⟨[], []⟩) ∧
      TerminationAndCheck
        [fun _ g => (false, g), fun _ g => (true, g)] ([] : Population Unit) ⟨[], []⟩
        = (false, ⟨[], []⟩)) := by
  refine ⟨(termination_or_and_shortcircuit Unit).1 [] ⟨[], []⟩, ?_, ?_⟩
  · exact (((termination_or_and_shortcircuit Unit).2
      (fun _ g => (true, g)) [fun _ g => (false, g)] [] ⟨[], []⟩ ⟨[], []⟩).1 rfl).1
  · exact (((termination_or_and_shortcircuit Unit).2
      (fun _ g => (false, g)) [fun _ g => (true, g)] [] ⟨[], []⟩ ⟨[], []⟩).2 rfl).2

/-! ### termination.h: stagnation -/

/-- `std::max_element` over `Individual::operator<` (fitness order): the
largest fitness of the population, `none` when empty. -/
def bestFitness (pop : Population T) : Option ℚ :=
  (pop.map Individual.fitness).max?

/-- State of `snf::TerminationStagnation`: the configured maximum, the
running no-improvement counter and the tracked best fitness
(`curr_generation_ = 0`, `best_fitness_ = 0.0` at construction). -/
structure TerminationStagnation where
  max_generations : ℕ
  curr_generation : ℕ
  best_fitness : ℚ
deriving DecidableEq, Repr

/-- `TerminationStagnation` constructor. -/
def TerminationStagnation.init (max : ℕ) : TerminationStagnation := ⟨max, 0, 0⟩

/-- `TerminationStagnation::operator()`: empty population terminates; a best
fitness strictly above the tracked best resets the counter, otherwise the
counter is bumped and compared with the maximum. -/
def stagnationStep (s : TerminationStagnation) (pop : Population T) :
    Bool × TerminationStagnation :=
  match bestFitness pop with
  | none => (true, s)
  | some b =>
    if s.best_fitness < b then
      (false, { s with best_fitness := b, curr_generation := 0 })
    else
      (decide (s.curr_generation + 1 ≥ s.max_generations),
       { s with curr_generation := s.curr_generation + 1 })

/-- Iterate the stagnation predicate over a sequence of populations,
collecting its verdicts. -/
def runStag (s : TerminationStagnation) : List (Population T) → List Bool
  | [] => []
  | p :: ps =>
    let r := stagnationStep s p
    r.1 :: runStag r.2 ps

/-- Singleton population of the given fitness. -/
def mkPop (q : ℚ) : Population Unit := [⟨(), q⟩]

theorem bestFitness_mkPop (q : ℚ) : bestFitness (mkPop q) = some q := rfl

/-! ### Claim C6: stagnation termination -/

/-- Counterexample to C6 as stated: the tracked best fitness starts at `0`,
so on the strictly increasing best-fitness sequence `0, 1` with
`max_generations = 1` the predicate terminates at the very first call
(`[true, false]`), although the claim says a strictly monotonically
increasing sequence never terminates (`[false, false]`). -/
theorem terminationStagnation_cex :
    runStag (TerminationStagnation.init 1) (List.map mkPop [(0 : ℚ), 1]) = [true, false] ∧
    runStag (TerminationStagnation.init 1) (List.map mkPop [(0 : ℚ), 1]) ≠
      List.replicate 2 false := by
  constructor
  · rfl
  · intro h
    simp [runStag, stagnationStep, TerminationStagnation.init, mkPop, bestFitness] at h

theorem runStag_chain_false (s : TerminationStagnation) (fs : List ℚ)
    (h : List.Chain' (· < ·) (s.best_fitness :: fs)) :
    runStag s (fs.map mkPop) = List.replicate fs.length false := by
  induction fs generalizing s with
  | nil => rfl
  | cons q rest ih =>
    have hlt : s.best_fitness < q := (List.chain'_cons.mp h).1
    have hchain : List.Chain' (· < ·) (q :: rest) := (List.chain'_cons.mp h).2
    simp only [List.map, runStag, stagnationStep, bestFitness_mkPop, if_pos hlt,
      List.length_cons, List.replicate_succ]
    exact congrArg (List.cons false) (ih ⟨s.max_generations, 0, q⟩ hchain)

theorem runStag_const_helper (max k : ℕ) (c : ℚ) :
    ∀ m, k + m = max → 1 ≤ m →
      runStag ⟨max, k, c⟩ (List.replicate m (mkPop c)) =
        List.replicate (m - 1) false ++ [true] := by
  intro m
  induction m generalizing k with
  | zero => omega
  | succ m' ih =>
    intro hsum _
    have hnlt : ¬ c < c := lt_irrefl c
    cases m' with
    | zero =>
      have hk : k + 1 = max := by omega
      simp [runStag, stagnationStep, bestFitness_mkPop, hnlt, hk, List.replicate]
    | succ m2 =>
      have hklt : ¬ k + 1 ≥ max := by omega
      have hrec := ih (k + 1) (by omega) (by omega)
      simp only [List.replicate, runStag, stagnationStep, bestFitness_mkPop,
        if_neg hnlt, decide_eq_true_eq] at hrec ⊢
      rw [hrec]
      simp [hklt, List.replicate_succ]

/-- C6 (amended): the tracked best-ever fitness is initialized to `0` (so a
first best of `0` counts as non-improving).  A best strictly above the
tracked best resets the counter and yields false; otherwise the counter is
bumped and the predicate yields true exactly when it reaches
`max_generations`.  Hence a strictly increasing best-fitness sequence whose
first value exceeds the initial tracked best never terminates, and
`max_generations + 1` calls with a constant positive best terminate exactly
at the last call. -/
theorem terminationStagnation_spec :
    (∀ (s : TerminationStagnation) (pop : Population Unit) (b : ℚ),
        bestFitness pop = some b → s.best_fitness < b →
        stagnationStep s pop = (false, ⟨s.max_generations, 0, b⟩)) ∧
    (∀ (s : TerminationStagnation) (pop : Population Unit) (b : ℚ),
        bestFitness pop = some b → b ≤ s.best_fitness →
        stagnationStep s pop =
          (decide (s.curr_generation + 1 ≥ s.max_generations),
           ⟨s.max_generations, s.curr_generation + 1, s.best_fitness⟩)) ∧
    (∀ (s : TerminationStagnation) (fs : List ℚ),
        List.Chain' (· < ·) (s.best_fitness :: fs) →
        runStag s (fs.map mkPop) = List.replicate fs.length false) ∧
    (∀ (max : ℕ) (c : ℚ), 0 < c → 1 ≤ max →
        runStag (TerminationStagnation.init max)
            (List.replicate (max + 1) (mkPop c)) =
          List.replicate max false ++ [true]) := by
  refine ⟨?_, ?_, runStag_chain_false, ?_⟩
  · intro s pop b hb hlt
    simp [stagnationStep, hb, if_pos hlt]
  · intro s pop b hb hle
    have hnlt : ¬ s.best_fitness < b := not_lt.mpr hle
    simp [stagnationStep, hb, if_neg hnlt]
  · intro max c hc hmax
    have hstep : List.replicate (max + 1) (mkPop c) =
        mkPop c :: List.replicate max (mkPop c) := by
      simp [List.replicate_succ]
    rw [hstep]
    simp only [runStag, stagnationStep, bestFitness_mkPop,
      TerminationStagnation.init, if_pos hc]
    rw [runStag_const_helper max 0 c max (by omega) (by omega)]
    have : List.replicate max false = false :: List.replicate (max - 1) false := by
      cases max with
      | zero => omega
      | succ m => simp [List.replicate_succ]
    rw [this]
    rfl

/-- Witness for C6: strictly increasing `1, 2, 3` from the fresh state never
terminates; constant best `5` with `max_generations = 2` terminates exactly
at the third call. -/
theorem terminationStagnation_spec_witness :
    runStag (TerminationStagnation.init 2) (List.map mkPop [(1 : ℚ), 2, 3]) =
      List.replicate 3 false ∧
    runStag (TerminationStagnation.init 2) (List.replicate 3 (mkPop 5)) =
      List.replicate 2 false ++ [true] ∧
    stagnationStep (TerminationStagnation.init 2) (mkPop 1) = (false, ⟨2, 0, 1⟩) ∧
    stagnationStep ⟨2, 0, 5⟩ (mkPop 5) = (decide ((0 : ℕ) + 1 ≥ 2), ⟨2, 1, 5⟩) := by
  refine ⟨?_, ?_, ?_, ?_⟩
  · exact terminationStagnation_spec.2.2.1 (TerminationStagnation.init 2) [1, 2, 3]
      (by norm_num [TerminationStagnation.init])
  · exact terminationStagnation_spec.2.2.2 2 5 (by norm_num) (by norm_num)
  · exact terminationStagnation_spec.1 (TerminationStagnation.init 2) (mkPop 1) 1
      (bestFitness_mkPop 1) (by norm_num [TerminationStagnation.init])
  · exact terminationStagnation_spec.2.1 ⟨2, 0, 5⟩ (mkPop 5) 5 (bestFitness_mkPop 5)
      (by norm_num)

/-! ### selection.h: roulette wheel and stochastic universal sampling -/

/-- The cumulative-fitness prefix sums
(`cum_fitness[i] = fitness[i] + cum_fitness[i-1]`). -/
def cumGo (prev : ℚ) : List (Individual T) → List ℚ
  | [] => []
  | x :: xs => (x.fitness + prev) :: cumGo (x.fitness + prev) xs

/-- `std::lower_bound`: index of the first element not less than the
target (list length when all are smaller). -/
def lowerBound (l : List ℚ) (target : ℚ) : ℕ :=
  match l with
  | [] => 0
  | x :: xs => if target ≤ x then 0 else lowerBound xs target + 1

/-- The roulette-wheel sampling loop: draw in `[0, total)`, locate the
segment by `lower_bound` on the prefix sums, append that individual. -/
def rouletteGo [Inhabited T] (src : Population T) (cum : List ℚ) (total : ℚ) :
    ℕ → Population T → Rng → Population T × Rng
  | 0, dst, g => (dst, g)
  | k + 1, dst, g =>
    let p := uniformReal total g
    let index := lowerBound cum p.1
    rouletteGo src cum total k (dst ++ [src.getD index default]) p.2

/-- `snf::SelectionRouletteWheel::operator()`. -/
def SelectionRouletteWheel [Inhabited T] (size : SelectionSize)
    (src dst : Population T) (g : Rng) : Population T × Rng :=
  if src.isEmpty then (dst, g)
  else
    let cum := cumGo 0 src
    let total := (src.map Individual.fitness).sum
    rouletteGo src cum total (size.apply src.length) dst g

/-- The SUS walk.  The inner
`while (cum_exp > offset + index) { dst.push_back(src[i]); ++index; }`
is rendered in closed form: it appends the current individual once per
integer `index` with `index < cum_exp - offset`, i.e.
`(⌈cum_exp - offset⌉ - index).toNat` times. -/
def susGo [Inhabited T] (samples : ℕ) (total offset : ℚ) :
    List (Individual T) → ℚ → ℕ → Population T → Population T
  | [], _, _, dst => dst
  | x :: xs, cumExp, index, dst =>
    let c := cumExp + samples * x.fitness / total
    let pushes := (⌈c - offset⌉ - index).toNat
    susGo samples total offset xs c (index + pushes) (dst ++ List.replicate pushes x)

/-- `snf::SelectionSus::operator()`. -/
def SelectionSus [Inhabited T] (size : SelectionSize)
    (src dst : Population T) (g : Rng) : Population T × Rng :=
  let samples := size.apply src.length
  let total := (src.map Individual.fitness).sum
  let p := nextRat g
  (susGo samples total p.1 src 0 0 dst, p.2)

/-! ### Claim C2: zero total fitness -/

/-- Counterexample to C2 as stated: on a two-individual population whose
fitness values sum to zero, roulette-wheel selection raises no error and
does select individuals (twice the first one). -/
theorem selection_zero_total_cex :
    (SelectionRouletteWheel ⟨2, 0⟩ [⟨(), 0⟩, ⟨(), 0⟩] []
        ⟨[1/2, 1/3], []⟩).1 = ([⟨(), 0⟩, ⟨(), 0⟩] : Population Unit) ∧
    (SelectionRouletteWheel ⟨2, 0⟩ [⟨(), 0⟩, ⟨(), 0⟩] []
        ⟨[1/2, 1/3], []⟩).1 ≠ ([] : Population Unit) := by
  have h : (SelectionRouletteWheel ⟨2, 0⟩ [⟨(), 0⟩, ⟨(), 0⟩] []
      ⟨[1/2, 1/3], []⟩).1 = ([⟨(), 0⟩, ⟨(), 0⟩] : Population Unit) := by
    norm_num [SelectionRouletteWheel, SelectionSize.apply, cumGo, lowerBound,
      rouletteGo, uniformReal, nextRat]
  rw [h]
  exact ⟨rfl, by simp⟩

theorem sum_zero_all_zero (l : List ℚ) (hnn : ∀ x ∈ l, 0 ≤ x)
    (hsum : l.sum = 0) : ∀ x ∈ l, x = 0 := by
  induction l with
  | nil => intro x hx; simp at hx
  | cons a as ih =>
    have ha : 0 ≤ a := hnn a (by simp)
    have has : 0 ≤ as.sum := List.sum_nonneg (fun x hx => hnn x (by simp [hx]))
    have hsum' : a + as.sum = 0 := by simpa using hsum
    have ha0 : a = 0 := by linarith
    have has0 : as.sum = 0 := by linarith
    intro x hx
    rcases List.mem_cons.mp hx with h | h
    · rw [h]; exact ha0
    · exact ih (fun y hy => hnn y (by simp [hy])) has0 x h

theorem cumGo_const (l : List (Individual T)) (hz : ∀ x ∈ l, x.fitness = 0) :
    ∀ prev, cumGo prev l = List.replicate l.length prev := by
  induction l with
  | nil => intro prev; rfl
  | cons x xs ih =>
    intro prev
    have hx : x.fitness = 0 := hz x (by simp)
    simp only [cumGo, hx, zero_add, List.length_cons, List.replicate_succ]
    exact congrArg (List.cons prev) (ih (fun y hy => hz y (by simp [hy])) prev)

theorem rouletteGo_zero [Inhabited T] (src : Population T) (m : ℕ) :
    ∀ (k : ℕ) (dst : Population T) (g : Rng),
      (rouletteGo src (List.replicate (m + 1) 0) 0 k dst g).1 =
        dst ++ List.replicate k (src.getD 0 default) := by
  intro k
  induction k with
  | zero => intro dst g; simp [rouletteGo]
  | succ k ih =>
    intro dst g
    have hlb : lowerBound (List.replicate (m + 1) 0) ((nextRat g).1 * 0) = 0 := by
      simp [List.replicate_succ, lowerBound]
    simp only [rouletteGo, uniformReal, hlb]
    rw [ih]
    simp [List.replicate_succ]

theorem susGo_zero [Inhabited T] (offset : ℚ) (hoff : 0 ≤ offset) (samples : ℕ) :
    ∀ (l : List (Individual T)) (dst : Population T),
      (∀ x ∈ l, x.fitness = 0) →
      susGo samples 0 offset l 0 0 dst = dst := by
  intro l
  induction l with
  | nil => intro dst _; rfl
  | cons x xs ih =>
    intro dst hz
    have hx : x.fitness = 0 := hz x (by simp)
    have hceil : ⌈(0 : ℚ) - offset⌉ ≤ 0 := by
      have h0 : (0 : ℚ) - offset ≤ 0 := by linarith
      calc ⌈(0 : ℚ) - offset⌉ ≤ ⌈(0 : ℚ)⌉ := Int.ceil_le_ceil h0
        _ = 0 := by simp
    have htn : (⌈(0 : ℚ) - offset⌉ - (0 : ℤ)).toNat = 0 := by omega
    simp only [susGo, hx, mul_zero, zero_div, add_zero, Nat.cast_zero, htn,
      List.replicate_zero, List.append_nil, Nat.add_zero]
    exact ih dst (fun y hy => hz y (by simp [hy]))

/-- C2 (amended): neither operator raises an error on a population whose
fitness values sum to zero.  Roulette-wheel degenerately selects: every draw
collapses to `0` and `lower_bound` on the all-zero prefix sums yields index
0, so it appends `samples` copies of the first individual.  SUS appends
nothing: every expected-count increment is the zero-division fallback, so
the walk never crosses a pointer. -/
theorem selection_zero_total_spec {T : Type} [Inhabited T] (size : SelectionSize)
    (src dst : Population T) (g : Rng) (hne : src ≠ [])
    (hnn : ∀ x ∈ src, 0 ≤ x.fitness)
    (hsum : (src.map Individual.fitness).sum = 0)
    (hwf : g.WF) :
    (SelectionRouletteWheel size src dst g).1 =
      dst ++ List.replicate (size.apply src.length) (src.getD 0 default) ∧
    (SelectionSus size src dst g).1 = dst := by
  have hz : ∀ x ∈ src, x.fitness = 0 := by
    intro x hx
    exact sum_zero_all_zero (src.map Individual.fitness)
      (by intro y hy
          rcases List.mem_map.mp hy with ⟨a, ha, rfl⟩
          exact hnn a ha)
      hsum x.fitness (List.mem_map.mpr ⟨x, hx, rfl⟩)
  constructor
  · have hemp : src.isEmpty = false := by
      cases src with
      | nil => exact absurd rfl hne
      | cons a as => rfl
    obtain ⟨m, hm⟩ : ∃ m, src.length = m + 1 := by
      cases src with
      | nil => exact absurd rfl hne
      | cons a as => exact ⟨as.length, rfl⟩
    have hcum : cumGo 0 src = List.replicate (m + 1) 0 := by
      rw [cumGo_const src hz 0, hm]
    simp only [SelectionRouletteWheel, hemp, Bool.false_eq_true, if_false, hcum, hsum]
    exact rouletteGo_zero src m (size.apply src.length) dst g
  · have hoff : 0 ≤ (nextRat g).1 := by
      unfold nextRat
      cases hr : g.rats with
      | nil => simp
      | cons r rs => exact (hwf r (by rw [hr]; simp)).1
    simp only [SelectionSus, hsum]
    exact susGo_zero (nextRat g).1 hoff (size.apply src.length) src dst hz

/-- Witness for C2 (amended) on a concrete all-zero population. -/
theorem selection_zero_total_spec_witness :
    (SelectionRouletteWheel ⟨2, 0⟩ [⟨(), 0⟩, ⟨(), 0⟩] [] ⟨[1/2, 1/3], []⟩).1 =
      [] ++ List.replicate (SelectionSize.apply ⟨2, 0⟩ 2)
        (List.getD [⟨(), 0⟩, ⟨(), 0⟩] 0 (default : Individual Unit)) ∧
    (SelectionSus ⟨2, 0⟩ [⟨(), 0⟩, ⟨(), 0⟩] [] ⟨[1/2, 1/3], []⟩).1 = [] :=
  selection_zero_total_spec ⟨2, 0⟩ [⟨(), 0⟩, ⟨(), 0⟩] [] ⟨[1/2, 1/3], []⟩
    (by simp)
    (by intro x hx
        simp only [List.mem_cons, List.not_mem_nil, or_false] at hx
        rcases hx with rfl | rfl <;> norm_num)
    (by simp)
    (by intro r hr
        simp only [Rng.rats, List.mem_cons, List.not_mem_nil, or_false] at hr
        rcases hr with rfl | rfl <;> norm_num)

/-! ### crossover.h: N-point and uniform crossover -/

/-- The `CrossoverPoint` loop: `point_count` times, draw a cut index in
`[0, size-1]` and `std::swap_ranges` the aligned prefixes `[0, index)` of
the two parents. -/
def crossoverPointGo (size : ℕ) : ℕ → List α → List α → Rng → List α × List α × Rng
  | 0, v0, v1, g => (v0, v1, g)
  | k + 1, v0, v1, g =>
    let p := uniformInt 0 (size - 1) g
    crossoverPointGo size k (v1.take p.1 ++ v0.drop p.1) (v0.take p.1 ++ v1.drop p.1) p.2

/-- `snf::CrossoverPoint::operator()` (`size = max(len0, len1)`). -/
def CrossoverPoint (point_count : ℕ) (v0 v1 : List α) (g : Rng) :
    List α × List α × Rng :=
  crossoverPointGo (max v0.length v1.length) point_count v0 v1 g

/-- `snf::CrossoverUniform::operator()`: walk the aligned positions up to
the shorter length, swapping each pair with probability 0.5. -/
def CrossoverUniform : List α → List α → Rng → List α × List α × Rng
  | x :: xs, y :: ys, g =>
    let p := bernoulli (1/2) g
    let r := CrossoverUniform xs ys p.2
    if p.1 then (y :: r.1, x :: r.2.1, r.2.2) else (x :: r.1, y :: r.2.1, r.2.2)
  | v0, v1, g => (v0, v1, g)

/-! ### Claim C10: position-wise pair preservation -/

/-- At every position, the unordered pair of aligned values is preserved:
either both lists keep their element there, or the two are swapped. -/
def PairsPreserved (v0 v1 w0 w1 : List α) : Prop :=
  ∀ (i : ℕ) (d : α),
    (w0.getD i d = v0.getD i d ∧ w1.getD i d = v1.getD i d) ∨
    (w0.getD i d = v1.getD i d ∧ w1.getD i d = v0.getD i d)

theorem pairsPreserved_refl (v0 v1 : List α) : PairsPreserved v0 v1 v0 v1 :=
  fun _ _ => Or.inl ⟨rfl, rfl⟩

theorem pairsPreserved_trans {v0 v1 u0 u1 w0 w1 : List α}
    (h1 : PairsPreserved v0 v1 u0 u1) (h2 : PairsPreserved u0 u1 w0 w1) :
    PairsPreserved v0 v1 w0 w1 := by
  intro i d
  rcases h1 i d with ⟨a0, a1⟩ | ⟨a0, a1⟩ <;>
    rcases h2 i d with ⟨b0, b1⟩ | ⟨b0, b1⟩
  · exact Or.inl ⟨b0.trans a0, b1.trans a1⟩
  · exact Or.inr ⟨b0.trans a1, b1.trans a0⟩
  · exact Or.inr ⟨b0.trans a0, b1.trans a1⟩
  · exact Or.inl ⟨b0.trans a1, b1.trans a0⟩

theorem getD_take (l : List α) (n i : ℕ) (d : α) (h : i < n) :
    (l.take n).getD i d = l.getD i d := by
  induction l generalizing n i with
  | nil => simp
  | cons x xs ih =>
    cases n with
    | zero => omega
    | succ m =>
      cases i with
      | zero => rfl
      | succ j => simpa using ih m j (by omega)

theorem getD_drop (l : List α) (n i : ℕ) (d : α) :
    (l.drop n).getD i d = l.getD (n + i) d := by
  induction l generalizing n with
  | nil => simp
  | cons x xs ih =>
    cases n with
    | zero => simp
    | succ m =>
      have : m + 1 + i = (m + i) + 1 := by omega
      simp only [List.drop_succ_cons, ih m, this, List.getD_cons_succ]

theorem pairsPreserved_prefixSwap (v0 v1 : List α) (idx : ℕ)
    (h : v0.length = v1.length) (hidx : idx ≤ v0.length) :
    PairsPreserved v0 v1 (v1.take idx ++ v0.drop idx) (v0.take idx ++ v1.drop idx) := by
  intro i d
  have hlt0 : (v0.take idx).length = idx := by
    simp [List.length_take]
    omega
  have hlt1 : (v1.take idx).length = idx := by
    simp [List.length_take]
    omega
  by_cases hi : i < idx
  · refine Or.inr ⟨?_, ?_⟩
    · rw [List.getD_append _ _ _ _ (by omega : i < (v1.take idx).length)]
      exact getD_take v1 idx i d hi
    · rw [List.getD_append _ _ _ _ (by omega : i < (v0.take idx).length)]
      exact getD_take v0 idx i d hi
  · refine Or.inl ⟨?_, ?_⟩
    · rw [List.getD_append_right _ _ _ _ (by omega : (v1.take idx).length ≤ i)]
      rw [hlt1, getD_drop]
      congr 1
      omega
    · rw [List.getD_append_right _ _ _ _ (by omega : (v0.take idx).length ≤ i)]
      rw [hlt0, getD_drop]
      congr 1
      omega

theorem length_prefixSwap (v0 v1 : List α) (idx : ℕ)
    (h : v0.length = v1.length) (hidx : idx ≤ v0.length) :
    (v1.take idx ++ v0.drop idx).length = v0.length := by
  simp [List.length_take, List.length_drop]
  omega

theorem crossoverPointGo_pairs (n : ℕ) (k : ℕ) :
    ∀ (v0 v1 : List α) (g : Rng), v0.length = n → v1.length = n →
      PairsPreserved v0 v1 (crossoverPointGo n k v0 v1 g).1
        (crossoverPointGo n k v0 v1 g).2.1 := by
  induction k with
  | zero => intro v0 v1 g _ _; exact pairsPreserved_refl v0 v1
  | succ k ih =>
    intro v0 v1 g h0 h1
    have heq : v0.length = v1.length := by omega
    have hidx : (uniformInt 0 (n - 1) g).1 ≤ v0.length := by
      have hm : (nextNat g).1 % (n - 1 + 1 - 0) < n - 1 + 1 - 0 :=
        Nat.mod_lt _ (by omega)
      simp only [uniformInt]
      omega
    have hstep := pairsPreserved_prefixSwap v0 v1 (uniformInt 0 (n - 1) g).1 heq hidx
    have hl0 : (v1.take (uniformInt 0 (n - 1) g).1 ++
        v0.drop (uniformInt 0 (n - 1) g).1).length = n := by
      rw [length_prefixSwap v0 v1 _ heq hidx]
      exact h0
    have hl1 : (v0.take (uniformInt 0 (n - 1) g).1 ++
        v1.drop (uniformInt 0 (n - 1) g).1).length = n := by
      rw [length_prefixSwap v1 v0 _ heq.symm (by omega)]
      exact h1
    have hrec := ih _ _ (uniformInt 0 (n - 1) g).2 hl0 hl1
    exact pairsPreserved_trans hstep (by simpa [crossoverPointGo] using hrec)

theorem crossoverUniform_pairs :
    ∀ (v0 v1 : List α) (g : Rng), v0.length = v1.length →
      PairsPreserved v0 v1 (CrossoverUniform v0 v1 g).1
        (CrossoverUniform v0 v1 g).2.1 := by
  intro v0
  induction v0 with
  | nil =>
    intro v1 g h
    have : v1 = [] := by
      cases v1 with
      | nil => rfl
      | cons y ys => simp at h
    subst this
    exact pairsPreserved_refl [] []
  | cons x xs ih =>
    intro v1 g h
    cases v1 with
    | nil => simp at h
    | cons y ys =>
      have hrec := ih ys (bernoulli (1/2) g).2 (by simpa using h)
      intro i d
      simp only [CrossoverUniform]
      by_cases hb : (bernoulli (1/2) g).1 = true
      · rw [if_pos hb]
        cases i with
        | zero => exact Or.inr ⟨by simp, by simp⟩
        | succ j => simpa only [List.getD_cons_succ] using hrec j d
      · rw [if_neg hb]
        cases i with
        | zero => exact Or.inl ⟨by simp, by simp⟩
        | succ j => simpa only [List.getD_cons_succ] using hrec j d

/-- C10: for equal-length parents and every pseudorandom stream, N-point
crossover and uniform crossover preserve, at every position, the unordered
pair of aligned values (each elementary action swaps the two aligned
elements or leaves both in place). -/
theorem crossover_point_uniform_pairs {α : Type} (v0 v1 : List α)
    (pc : ℕ) (g g' : Rng) (h : v0.length = v1.length) :
    PairsPreserved v0 v1 (CrossoverPoint pc v0 v1 g).1
      (CrossoverPoint pc v0 v1 g).2.1 ∧
    PairsPreserved v0 v1 (CrossoverUniform v0 v1 g').1
      (CrossoverUniform v0 v1 g').2.1 := by
  constructor
  · unfold CrossoverPoint
    have hmax : max v0.length v1.length = v0.length := by omega
    exact crossoverPointGo_pairs (max v0.length v1.length) pc v0 v1 g
      (by omega) (by omega)
  · exact crossoverUniform_pairs v0 v1 g' h

/-- Witness for C10 on concrete two-element parents: one-point crossover
with cut index 1 swaps the first aligned pair, uniform crossover with draws
`0, 1` swaps exactly the first pair; both evaluations preserve the aligned
pairs. -/
theorem crossover_point_uniform_pairs_witness :
    (CrossoverPoint 1 [10, 20] [30, 40] ⟨[], [1]⟩).1 = [30, 20] ∧
    (CrossoverUniform [10, 20] [30, 40] ⟨[0, 1], []⟩).1 = [30, 20] ∧
    (PairsPreserved [10, 20] [30, 40] (CrossoverPoint 1 [10, 20] [30, 40] ⟨[], [1]⟩).1
      (CrossoverPoint 1 [10, 20] [30, 40] ⟨[], [1]⟩).2.1 ∧
     PairsPreserved [10, 20] [30, 40] (CrossoverUniform [10, 20] [30, 40] ⟨[0, 1], []⟩).1
      (CrossoverUniform [10, 20] [30, 40] ⟨[0, 1], []⟩).2.1) := by
  refine ⟨?_, ?_, crossover_point_uniform_pairs [10, 20] [30, 40] 1 ⟨[], [1]⟩
    ⟨[0, 1], []⟩ rfl⟩
  · norm_num [CrossoverPoint, crossoverPointGo, uniformInt, nextNat]
  · norm_num [CrossoverUniform, bernoulli, nextRat]

/-! ### crossover.h: partially-matched crossover (PMX) -/

/-- The PMX inverse-position build loop: `p[v[i]] = i` for `i = 0 .. m-1`
(`p0.assign(size, 0)` followed by the assignment loop). -/
def buildPos (v : List ℕ) : ℕ → List ℕ → List ℕ
  | 0, p => p
  | m + 1, p => (buildPos v m p).set (v.getD m 0) m

/-- The working state of the PMX exchange loop: the two representations and
their inverse-position maps. -/
structure PmxState where
  v0 : List ℕ
  p0 : List ℕ
  v1 : List ℕ
  p1 : List ℕ

/-- The PMX loop body at position `i`: exchange `value0[i]` and
`value1[i]`, repair the displaced duplicates through the inverse maps, and
swap the inverse-map entries. -/
def pmxStep (s : PmxState) (i : ℕ) : PmxState :=
  let tmp0 := s.v0.getD i 0
  let tmp1 := s.v1.getD i 0
  { v0 := (s.v0.set i tmp1).set (s.p0.getD tmp1 0) tmp0
    v1 := (s.v1.set i tmp0).set (s.p1.getD tmp0 0) tmp1
    p0 := (s.p0.set tmp0 (s.p0.getD tmp1 0)).set tmp1 (s.p0.getD tmp0 0)
    p1 := (s.p1.set tmp0 (s.p1.getD tmp1 0)).set tmp1 (s.p1.getD tmp0 0) }

/-- The PMX exchange loop, from position `i` for `fuel` iterations
(`for (i = index0; i < index1; ++i)` with `fuel = index1 - index0`). -/
def pmxLoop (s : PmxState) (i : ℕ) : ℕ → PmxState
  | 0 => s
  | f + 1 => pmxLoop (pmxStep s i) (i + 1) f

/-- `snf::CrossoverPmx::operator()`: draw two cut points in `[0, size]`,
order them, return unchanged when they coincide, otherwise build the
inverse maps and run the exchange loop over the cut interval. -/
def CrossoverPmx (v0 v1 : List ℕ) (g : Rng) : List ℕ × List ℕ × Rng :=
  let size := min v0.length v1.length
  let q0 := uniformInt 0 size g
  let q1 := uniformInt 0 size q0.2
  let index0 := min q0.1 q1.1
  let index1 := max q0.1 q1.1
  if index0 = index1 then (v0, v1, q1.2)
  else
    let p0 := buildPos v0 size (List.replicate size 0)
    let p1 := buildPos v1 size (List.replicate size 0)
    let s := pmxLoop ⟨v0, p0, v1, p1⟩ index0 (index1 - index0)
    (s.v0, s.v1, q1.2)

/-! ### PMX invariant -/

/-- The PMX loop invariant for one representation and its inverse map:
both have length `n`, both are `n`-valued, and they are mutually inverse. -/
def PmxInv (v p : List ℕ) (n : ℕ) : Prop :=
  v.length = n ∧ p.length = n ∧
  (∀ k, k < n → v.getD k 0 < n) ∧
  (∀ k, k < n → p.getD k 0 < n) ∧
  (∀ k, k < n → p.getD (v.getD k 0) 0 = k) ∧
  (∀ k, k < n → v.getD (p.getD k 0) 0 = k)

theorem set_getD_self {α : Type u} (l : List α) (i : ℕ) (d : α) :
    l.set i (l.getD i d) = l := by
  induction l generalizing i with
  | nil => rfl
  | cons x xs ih =>
    cases i with
    | zero => rfl
    | succ k => simpa using ih k

theorem getD_mem {α : Type u} (l : List α) (i : ℕ) (d : α) (h : i < l.length) :
    l.getD i d ∈ l := by
  rw [List.getD_eq_getElem l d h]
  exact List.getElem_mem h

/-- The update applied by `pmxStep` to one `(v, p)` pair preserves the
invariant (`a = v[i]`, `b` the other parent's value at `i`,
`j = p[b]`). -/
theorem pmxPairStep_inv (v p : List ℕ) (n i b : ℕ)
    (hInv : PmxInv v p n) (hi : i < n) (hb : b < n) :
    PmxInv ((v.set i b).set (p.getD b 0) (v.getD i 0))
      ((p.set (v.getD i 0) (p.getD b 0)).set b (p.getD (v.getD i 0) 0)) n := by
  obtain ⟨hvl, hpl, hvval, hpval, hpv, hvp⟩ := hInv
  set a := v.getD i 0 with ha_def
  set j := p.getD b 0 with hj_def
  have ha : a < n := hvval i hi
  have hj : j < n := hpval b hb
  have hpa : p.getD a 0 = i := hpv i hi
  have hvj : v.getD j 0 = b := hvp b hb
  by_cases hab : a = b
  · -- the two aligned values coincide: the update is the identity
    have hji : j = i := by rw [hj_def, ← hab, hpa]
    have hv' : (v.set i b).set j a = v := by
      rw [hji, List.set_set, ha_def, set_getD_self]
    have hp' : (p.set a j).set b (p.getD a 0) = p := by
      rw [← hab, List.set_set, set_getD_self]
    rw [hv', hp']
    exact ⟨hvl, hpl, hvval, hpval, hpv, hvp⟩
  · have hji : j ≠ i := by
      intro hcontra
      apply hab
      rw [ha_def, ← hcontra, hvj]
    -- pointwise description of the updated representation
    have hvl' : ((v.set i b).set j a).length = n := by simp [hvl]
    have hpl' : ((p.set a j).set b (p.getD a 0)).length = n := by simp [hpl]
    have hv'_i : ((v.set i b).set j a).getD i 0 = b := by
      rw [getD_set_ne _ _ _ _ _ hji, getD_set_self _ _ _ _ (by omega)]
    have hv'_j : ((v.set i b).set j a).getD j 0 = a := by
      rw [getD_set_self _ _ _ _ (by simp [hvl]; omega)]
    have hv'_other : ∀ k, k ≠ i → k ≠ j → ((v.set i b).set j a).getD k 0 = v.getD k 0 := by
      intro k hki hkj
      rw [getD_set_ne _ _ _ _ _ (fun hc => hkj hc.symm),
        getD_set_ne _ _ _ _ _ (fun hc => hki hc.symm)]
    have hp'_b : ((p.set a j).set b (p.getD a 0)).getD b 0 = i := by
      rw [getD_set_self _ _ _ _ (by simp [hpl]; omega), hpa]
    have hp'_a : ((p.set a j).set b (p.getD a 0)).getD a 0 = j := by
      rw [getD_set_ne _ _ _ _ _ (fun hc => hab hc.symm),
        getD_set_self _ _ _ _ (by omega)]
    have hp'_other : ∀ k, k ≠ a → k ≠ b →
        ((p.set a j).set b (p.getD a 0)).getD k 0 = p.getD k 0 := by
      intro k hka hkb
      rw [getD_set_ne _ _ _ _ _ (fun hc => hkb hc.symm),
        getD_set_ne _ _ _ _ _ (fun hc => hka hc.symm)]
    refine ⟨hvl', hpl', ?_, ?_, ?_, ?_⟩
    · intro k hk
      by_cases hki : k = i
      · rw [hki, hv'_i]; exact hb
      · by_cases hkj : k = j
        · rw [hkj, hv'_j]; exact ha
        · rw [hv'_other k hki hkj]; exact hvval k hk
    · intro k hk
      by_cases hka : k = a
      · rw [hka, hp'_a]; exact hj
      · by_cases hkb : k = b
        · rw [hkb, hp'_b]; exact hi
        · rw [hp'_other k hka hkb]; exact hpval k hk
    · intro k hk
      by_cases hki : k = i
      · rw [hki, hv'_i, hp'_b]
      · by_cases hkj : k = j
        · rw [hkj, hv'_j, hp'_a]
        · have hmem : v.getD k 0 < n := hvval k hk
          have hca : v.getD k 0 ≠ a := by
            intro hc
            apply hki
            have := hpv k hk
            rw [hc, hpa] at this
            omega
          have hcb : v.getD k 0 ≠ b := by
            intro hc
            apply hkj
            have := hpv k hk
            rw [hc] at this
            rw [hj_def, this]
          rw [hv'_other k hki hkj, hp'_other _ hca hcb]
          exact hpv k hk
    · intro k hk
      by_cases hkb : k = b
      · rw [hkb, hp'_b, hv'_i]
      · by_cases hka : k = a
        · rw [hka, hp'_a, hv'_j]
        · have hmi : p.getD k 0 ≠ i := by
            intro hc
            apply hka
            have := hvp k hk
            rw [hc, ← ha_def] at this
            omega
          have hmj : p.getD k 0 ≠ j := by
            intro hc
            apply hkb
            have := hvp k hk
            rw [hc, hvj] at this
            omega
          rw [hp'_other k hka hkb, hv'_other _ hmi hmj]
          exact hvp k hk

theorem uniformInt_le (lo hi : ℕ) (g : Rng) (h : lo ≤ hi) :
    (uniformInt lo hi g).1 ≤ hi := by
  have hmod := Nat.mod_lt (nextNat g).1 (y := hi + 1 - lo) (by omega)
  simp only [uniformInt]
  omega

theorem set_swap_comm (p : List ℕ) (x y : ℕ) :
    (p.set x (p.getD y 0)).set y (p.getD x 0) =
      (p.set y (p.getD x 0)).set x (p.getD y 0) := by
  by_cases h : x = y
  · subst h; rfl
  · exact List.set_comm _ _ p h

theorem pmxStep_inv (s : PmxState) (n i : ℕ)
    (h0 : PmxInv s.v0 s.p0 n) (h1 : PmxInv s.v1 s.p1 n) (hi : i < n) :
    PmxInv (pmxStep s i).v0 (pmxStep s i).p0 n ∧
      PmxInv (pmxStep s i).v1 (pmxStep s i).p1 n := by
  have htmp0 : s.v0.getD i 0 < n := h0.2.2.1 i hi
  have htmp1 : s.v1.getD i 0 < n := h1.2.2.1 i hi
  constructor
  · exact pmxPairStep_inv s.v0 s.p0 n i (s.v1.getD i 0) h0 hi htmp1
  · have h := pmxPairStep_inv s.v1 s.p1 n i (s.v0.getD i 0) h1 hi htmp0
    show PmxInv ((s.v1.set i (s.v0.getD i 0)).set
        (s.p1.getD (s.v0.getD i 0) 0) (s.v1.getD i 0))
      ((s.p1.set (s.v0.getD i 0) (s.p1.getD (s.v1.getD i 0) 0)).set
        (s.v1.getD i 0) (s.p1.getD (s.v0.getD i 0) 0)) n
    rw [set_swap_comm]
    exact h

theorem pmxLoop_inv (f : ℕ) : ∀ (s : PmxState) (n i : ℕ),
    PmxInv s.v0 s.p0 n → PmxInv s.v1 s.p1 n → i + f ≤ n →
    PmxInv (pmxLoop s i f).v0 (pmxLoop s i f).p0 n ∧
      PmxInv (pmxLoop s i f).v1 (pmxLoop s i f).p1 n := by
  induction f with
  | zero => intro s n i h0 h1 _; exact ⟨h0, h1⟩
  | succ f ih =>
    intro s n i h0 h1 hle
    have hi : i < n := by omega
    have hstep := pmxStep_inv s n i h0 h1 hi
    have hrec := ih (pmxStep s i) n (i + 1) hstep.1 hstep.2 (by omega)
    simpa [pmxLoop] using hrec

theorem buildPos_length (v : List ℕ) (m : ℕ) (p : List ℕ) :
    (buildPos v m p).length = p.length := by
  induction m with
  | zero => rfl
  | succ m ih => simp [buildPos, ih]

theorem buildPos_getD (v : List ℕ) (n : ℕ)
    (hinj : ∀ k1 k2, k1 < n → k2 < n → v.getD k1 0 = v.getD k2 0 → k1 = k2)
    (hvval : ∀ k, k < n → v.getD k 0 < n)
    (p : List ℕ) (hpl : p.length = n) :
    ∀ m, m ≤ n → ∀ k, k < m → (buildPos v m p).getD (v.getD k 0) 0 = k := by
  intro m
  induction m with
  | zero => intro _ k hk; omega
  | succ m ih =>
    intro hm k hk
    by_cases hkm : k = m
    · subst hkm
      simp only [buildPos]
      apply getD_set_self
      rw [buildPos_length, hpl]
      exact hvval k (by omega)
    · have hne : v.getD m 0 ≠ v.getD k 0 := by
        intro hc
        exact hkm (hinj m k (by omega) (by omega) hc).symm
      simp only [buildPos]
      rw [getD_set_ne _ _ _ _ _ hne]
      exact ih (by omega) k (by omega)

theorem perm_basic_facts (v : List ℕ) (n : ℕ) (hperm : List.Perm v (List.range n)) :
    v.length = n ∧
    (∀ k, k < n → v.getD k 0 < n) ∧
    (∀ k1 k2, k1 < n → k2 < n → v.getD k1 0 = v.getD k2 0 → k1 = k2) ∧
    (∀ j, j < n → ∃ k, k < n ∧ v.getD k 0 = j) := by
  have hvl : v.length = n := by simpa using hperm.length_eq
  have hnd : v.Nodup := hperm.nodup_iff.mpr (List.nodup_range n)
  refine ⟨hvl, ?_, ?_, ?_⟩
  · intro k hk
    have hmem : v.getD k 0 ∈ v := getD_mem v k 0 (by omega)
    have := hperm.mem_iff.mp hmem
    simpa using this
  · intro k1 k2 h1 h2 heq
    have hk1 : k1 < v.length := by omega
    have hk2 : k2 < v.length := by omega
    have e1 : v.getD k1 0 = v[k1] := List.getD_eq_getElem v 0 hk1
    have e2 : v.getD k2 0 = v[k2] := List.getD_eq_getElem v 0 hk2
    rw [e1, e2] at heq
    exact (hnd.getElem_inj_iff).mp heq
  · intro j hj
    have hmem : j ∈ v := hperm.mem_iff.mpr (by simpa using hj)
    obtain ⟨k, hk, he⟩ := List.mem_iff_getElem.mp hmem
    refine ⟨k, by omega, ?_⟩
    rw [List.getD_eq_getElem v 0 hk]
    exact he

theorem buildPos_inv (v : List ℕ) (n : ℕ) (hperm : List.Perm v (List.range n)) :
    PmxInv v (buildPos v n (List.replicate n 0)) n := by
  obtain ⟨hvl, hvval, hinj, hsurj⟩ := perm_basic_facts v n hperm
  have hpl : (buildPos v n (List.replicate n 0)).length = n := by
    rw [buildPos_length]
    simp
  have hbuild := buildPos_getD v n hinj hvval (List.replicate n 0) (by simp) n le_rfl
  refine ⟨hvl, hpl, hvval, ?_, fun k hk => hbuild k hk, ?_⟩
  · intro j hj
    obtain ⟨k, hk, he⟩ := hsurj j hj
    rw [← he, hbuild k hk]
    exact hk
  · intro j hj
    obtain ⟨k, hk, he⟩ := hsurj j hj
    rw [← he, hbuild k hk, he]

theorem perm_of_inv (v p : List ℕ) (n : ℕ) (hInv : PmxInv v p n) :
    List.Perm v (List.range n) := by
  obtain ⟨hvl, hpl, hvval, hpval, hpv, hvp⟩ := hInv
  have hnd : v.Nodup := by
    rw [List.nodup_iff_injective_getElem]
    intro k1 k2 hg
    have e1 : v.getD k1.1 0 = v[k1.1] := List.getD_eq_getElem v 0 k1.2
    have e2 : v.getD k2.1 0 = v[k2.1] := List.getD_eq_getElem v 0 k2.2
    have heq : v.getD k1.1 0 = v.getD k2.1 0 := by rw [e1, e2]; exact hg
    have h1 := hpv k1.1 (by omega)
    have h2 := hpv k2.1 (by omega)
    rw [heq] at h1
    rw [h2] at h1
    exact Fin.ext h1.symm
  have hrnd : (List.range n).Nodup := List.nodup_range n
  rw [List.perm_ext_iff_of_nodup hnd hrnd]
  intro a
  constructor
  · intro ha
    obtain ⟨k, hk, he⟩ := List.mem_iff_getElem.mp ha
    rw [List.mem_range]
    have := hvval k (by omega)
    rw [List.getD_eq_getElem v 0 hk] at this
    omega
  · intro ha
    rw [List.mem_range] at ha
    have hpj : p.getD a 0 < n := hpval a ha
    have := hvp a ha
    rw [← this]
    exact getD_mem v (p.getD a 0) 0 (by omega)

/-! ### Claim C1: PMX preserves permutations -/

/-- C1: for every pair of length-`n` permutations of `0..n-1` and every
pseudorandom stream, PMX leaves both representations permutations of
`0..n-1` (no duplicates, no missing values). -/
theorem crossoverPmx_perm (n : ℕ) (v0 v1 : List ℕ) (g : Rng)
    (h0 : List.Perm v0 (List.range n)) (h1 : List.Perm v1 (List.range n)) :
    List.Perm (CrossoverPmx v0 v1 g).1 (List.range n) ∧
    List.Perm (CrossoverPmx v0 v1 g).2.1 (List.range n) := by
  have hl0 : v0.length = n := by simpa using h0.length_eq
  have hl1 : v1.length = n := by simpa using h1.length_eq
  have hsize : min v0.length v1.length = n := by omega
  unfold CrossoverPmx
  rw [hsize]
  by_cases hidx : min (uniformInt 0 n g).1 (uniformInt 0 n (uniformInt 0 n g).2).1 =
      max (uniformInt 0 n g).1 (uniformInt 0 n (uniformInt 0 n g).2).1
  · rw [if_pos hidx]
    exact ⟨h0, h1⟩
  · rw [if_neg hidx]
    have hmax : max (uniformInt 0 n g).1 (uniformInt 0 n (uniformInt 0 n g).2).1 ≤ n := by
      have hm1 := uniformInt_le 0 n g (by omega)
      have hm2 := uniformInt_le 0 n (uniformInt 0 n g).2 (by omega)
      omega
    have hloop := pmxLoop_inv
      (max (uniformInt 0 n g).1 (uniformInt 0 n (uniformInt 0 n g).2).1 -
        min (uniformInt 0 n g).1 (uniformInt 0 n (uniformInt 0 n g).2).1)
      ⟨v0, buildPos v0 n (List.replicate n 0), v1, buildPos v1 n (List.replicate n 0)⟩
      n
      (min (uniformInt 0 n g).1 (uniformInt 0 n (uniformInt 0 n g).2).1)
      (buildPos_inv v0 n h0) (buildPos_inv v1 n h1)
      (by omega)
    exact ⟨perm_of_inv _ _ n hloop.1, perm_of_inv _ _ n hloop.2⟩

/-- Witness for C1: PMX on the 4-permutations `[2,0,3,1]` and `[1,3,0,2]`
with cut points 1 and 2 yields the permutations `[2,3,0,1]` and
`[1,0,3,2]`. -/
theorem crossoverPmx_perm_witness :
    (CrossoverPmx [2, 0, 3, 1] [1, 3, 0, 2] ⟨[], [1, 2]⟩).1 = [2, 3, 0, 1] ∧
    (CrossoverPmx [2, 0, 3, 1] [1, 3, 0, 2] ⟨[], [1, 2]⟩).2.1 = [1, 0, 3, 2] ∧
    List.Perm (CrossoverPmx [2, 0, 3, 1] [1, 3, 0, 2] ⟨[], [1, 2]⟩).1
      (List.range 4) ∧
    List.Perm (CrossoverPmx [2, 0, 3, 1] [1, 3, 0, 2] ⟨[], [1, 2]⟩).2.1
      (List.range 4) := by
  refine ⟨by decide, by decide, ?_⟩
  exact crossoverPmx_perm 4 [2, 0, 3, 1] [1, 3, 0, 2] ⟨[], [1, 2]⟩
    (by decide) (by decide)

/-! ### std::shuffle (Fisher–Yates, as libstdc++ consumes the engine) -/

/-- Swap the elements at positions `i` and `j`. -/
def swapIdx [Inhabited α] (l : List α) (i j : ℕ) : List α :=
  (l.set i (l.getD j default)).set j (l.getD i default)

/-- The Fisher–Yates walk: at index `m` (from `n-1` down to `1`) swap with a
uniformly drawn index `j ≤ m`. -/
def shuffleGo [Inhabited α] : ℕ → List α → Rng → List α × Rng
  | 0, l, g => (l, g)
  | m + 1, l, g =>
    let p := uniformInt 0 (m + 1) g
    shuffleGo m (swapIdx l (m + 1) p.1) p.2

/-- `std::shuffle`. -/
def shuffle [Inhabited α] (l : List α) (g : Rng) : List α × Rng :=
  shuffleGo (l.length - 1) l g

theorem set_perm_cons {α : Type u} (t : List α) (a d : α) :
    ∀ j, j < t.length → List.Perm (t.getD j d :: t.set j a) (a :: t) := by
  induction t with
  | nil => intro j hj; simp at hj
  | cons b s ih =>
    intro j hj
    cases j with
    | zero => exact List.Perm.swap a b s
    | succ m =>
      have h1 : List.Perm (s.getD m d :: b :: s.set m a)
          (b :: (s.getD m d :: s.set m a)) := List.Perm.swap b (s.getD m d) _
      have h2 : List.Perm (b :: (s.getD m d :: s.set m a)) (b :: (a :: s)) :=
        List.Perm.cons b (ih m (by simpa using hj))
      have h3 : List.Perm (b :: a :: s) (a :: b :: s) := List.Perm.swap a b s
      exact (h1.trans h2).trans h3

theorem swapIdx_perm {α : Type u} [Inhabited α] :
    ∀ (l : List α) (i j : ℕ), i < l.length → j < l.length →
      List.Perm (swapIdx l i j) l := by
  intro l
  induction l with
  | nil => intro i j hi _; simp at hi
  | cons x t ih =>
    intro i j hi hj
    cases i with
    | zero =>
      cases j with
      | zero =>
        unfold swapIdx
        simp [set_getD_self]
      | succ m =>
        unfold swapIdx
        simp only [List.getD_cons_succ, List.getD_cons_zero, List.set_cons_zero,
          List.set_cons_succ]
        exact set_perm_cons t x default m (by simpa using hj)
    | succ k =>
      cases j with
      | zero =>
        unfold swapIdx
        simp only [List.getD_cons_succ, List.getD_cons_zero, List.set_cons_zero,
          List.set_cons_succ]
        exact set_perm_cons t x default k (by simpa using hi)
      | succ m =>
        unfold swapIdx
        simp only [List.getD_cons_succ, List.set_cons_succ]
        exact List.Perm.cons x (ih k m (by simpa using hi) (by simpa using hj))

theorem shuffleGo_perm {α : Type u} [Inhabited α] (m : ℕ) :
    ∀ (l : List α) (g : Rng), m < l.length →
      List.Perm (shuffleGo m l g).1 l := by
  induction m with
  | zero => intro l g _; exact List.Perm.refl l
  | succ m ih =>
    intro l g hm
    have hj : (uniformInt 0 (m + 1) g).1 ≤ m + 1 := uniformInt_le 0 (m + 1) g (by omega)
    have hswap : List.Perm (swapIdx l (m + 1) (uniformInt 0 (m + 1) g).1) l :=
      swapIdx_perm l (m + 1) _ hm (by omega)
    have hlen : (swapIdx l (m + 1) (uniformInt 0 (m + 1) g).1).length = l.length :=
      hswap.length_eq
    have hrec := ih (swapIdx l (m + 1) (uniformInt 0 (m + 1) g).1)
      (uniformInt 0 (m + 1) g).2 (by omega)
    exact hrec.trans hswap

theorem shuffle_perm {α : Type u} [Inhabited α] (l : List α) (g : Rng) :
    List.Perm (shuffle l g).1 l := by
  cases l with
  | nil => exact List.Perm.refl _
  | cons x t =>
    exact shuffleGo_perm ((x :: t).length - 1) (x :: t) g (by simp)

/-! ### ga.h -/

/-- The pairing loop of `Ga::operator()`: for each adjacent pair of the
(shuffled) mating pool, apply crossover with probability `crossover_rate`
(marking both children dirty) and then, independently for each child,
mutation with probability `mutation_rate` (marking it dirty); a trailing odd
individual is left untouched. -/
def gaPairs (crossoverF : T → T → Rng → T × T × Rng)
    (mutationF : T → Rng → T × Rng)
    (mutation_rate crossover_rate : ℚ) :
    List (Individual T) → Rng → List (Individual T) × Rng
  | x :: y :: rest, g =>
    let pc := bernoulli crossover_rate g
    let xy : Individual T × Individual T × Rng :=
      if pc.1 then
        let c := crossoverF x.data y.data pc.2
        (⟨c.1, -1⟩, ⟨c.2.1, -1⟩, c.2.2)
      else (x, y, pc.2)
    let pm0 := bernoulli mutation_rate xy.2.2
    let x1 : Individual T × Rng :=
      if pm0.1 then
        let m := mutationF xy.1.data pm0.2
        (⟨m.1, -1⟩, m.2)
      else (xy.1, pm0.2)
    let pm1 := bernoulli mutation_rate x1.2
    let y1 : Individual T × Rng :=
      if pm1.1 then
        let m := mutationF xy.2.1.data pm1.2
        (⟨m.1, -1⟩, m.2)
      else (xy.2.1, pm1.2)
    let r := gaPairs crossoverF mutationF mutation_rate crossover_rate rest y1.2
    (x1.1 :: y1.1 :: r.1, r.2)
  | l, g => (l, g)

/-- `Ga::operator()` (one GA step), over abstract strategy functors: empty
populations terminate immediately; dirty individuals are evaluated; the
selection functor maps the population to a (possibly reordered) source and a
mating pool; an empty pool reports not-done; otherwise the pool is shuffled,
paired, recombined/mutated, merged back by the replacement functor, and the
termination functor is consulted. -/
def gaStep [Inhabited T] (evalF : T → Rng → ℚ × Rng)
    (selF : Population T → Rng → Population T × Population T × Rng)
    (crossoverF : T → T → Rng → T × T × Rng)
    (mutationF : T → Rng → T × Rng)
    (replF : Population T → Population T → Rng → Population T × Rng)
    (termF : Population T → Rng → Bool × Rng)
    (mutation_rate crossover_rate : ℚ)
    (pop : Population T) (g : Rng) : Bool × Population T × Rng :=
  if pop.isEmpty then (true, pop, g)
  else
    let e := Evaluate evalF pop g
    let s := selF e.1 e.2
    if s.2.1.isEmpty then (false, s.1, s.2.2)
    else
      let sh := shuffle s.2.1 s.2.2
      let pr := gaPairs crossoverF mutationF mutation_rate crossover_rate sh.1 sh.2
      let rp := replF pr.1 s.1 pr.2
      let tm := termF rp.1 rp.2
      (tm.1, rp.1, tm.2)

/-! ### Claim C4: empty mating pool -/

/-- Counterexample to C4 as stated: with a dirty individual in the
population and a selection functor returning an empty pool, the step
returns false but the population HAS been modified — `Evaluate` wrote the
evaluator's fitness into it before selection ran. -/
theorem gaStep_empty_pool_cex :
    (gaStep (fun _ g => ((7 : ℚ), g)) (fun src g => (src, [], g))
      (fun a b g => (a, b, g)) (fun a g => (a, g))
      (fun _ dst g => (dst, g)) (fun _ g => (false, g))
      0 0 [(⟨(), -1⟩ : Individual Unit)] ⟨[], []⟩).1 = false ∧
    (gaStep (fun _ g => ((7 : ℚ), g)) (fun src g => (src, [], g))
      (fun a b g => (a, b, g)) (fun a g => (a, g))
      (fun _ dst g => (dst, g)) (fun _ g => (false, g))
      0 0 [(⟨(), -1⟩ : Individual Unit)] ⟨[], []⟩).2.1 = [⟨(), 7⟩] ∧
    ((⟨(), 7⟩ : Individual Unit) ≠ ⟨(), -1⟩) := by
  refine ⟨?_, ?_, by simp only [ne_eq, Individual.mk.injEq, true_and]; norm_num⟩ <;>
    norm_num [gaStep, Evaluate, Individual.isDirty]

/-- C4 (amended): when the selection functor produces an empty mating pool,
the step returns not-done (false) and the population is exactly the
selection functor's source output after `Evaluate` — dirty individuals have
been evaluated (and the selection functor may have reordered its source),
but no crossover, mutation, replacement or termination functor is
applied. -/
theorem gaStep_empty_pool_spec {T : Type} [Inhabited T]
    (evalF : T → Rng → ℚ × Rng)
    (selF : Population T → Rng → Population T × Population T × Rng)
    (crossoverF : T → T → Rng → T × T × Rng)
    (mutationF : T → Rng → T × Rng)
    (replF : Population T → Population T → Rng → Population T × Rng)
    (termF : Population T → Rng → Bool × Rng)
    (mr cr : ℚ) (pop src' : Population T) (g g' : Rng)
    (hne : pop ≠ [])
    (hsel : selF (Evaluate evalF pop g).1 (Evaluate evalF pop g).2 = (src', [], g')) :
    gaStep evalF selF crossoverF mutationF replF termF mr cr pop g =
      (false, src', g') := by
  have hemp : pop.isEmpty = false := by
    cases pop with
    | nil => exact absurd rfl hne
    | cons x xs => rfl
  simp only [gaStep, hemp, Bool.false_eq_true, if_false, hsel, List.isEmpty_nil,
    if_true]

/-- Witness for C4 (amended) at the counterexample's concrete instance. -/
theorem gaStep_empty_pool_spec_witness :
    gaStep (fun _ g => ((7 : ℚ), g)) (fun src g => (src, [], g))
      (fun a b g => (a, b, g)) (fun a g => (a, g))
      (fun _ dst g => (dst, g)) (fun _ g => (false, g))
      0 0 [(⟨(), -1⟩ : Individual Unit)] ⟨[], []⟩ =
      (false, [⟨(), 7⟩], ⟨[], []⟩) := by
  have h := gaStep_empty_pool_spec (fun _ g => ((7 : ℚ), g))
    (fun src g => (src, [], g)) (fun a b g => (a, b, g)) (fun a g => (a, g))
    (fun _ dst g => (dst, g)) (fun _ g => (false, g)) 0 0
    [(⟨(), -1⟩ : Individual Unit)] [⟨(), 7⟩] ⟨[], []⟩ ⟨[], []⟩
    (by simp) ?_
  · exact h
  · norm_num [Evaluate, Individual.isDirty]

/-! ### pbil.h -/

/-- The mutation tail of the `PbilUpdate` position loop:
`if (mutation_dist(rng)) { p *= 1 - mutation_shift; if (flip_dist(rng)) p += mutation_shift; }`. -/
def pbilMutStep (mutation_prob mutation_shift : ℚ) (p : ℚ) (g : Rng) : ℚ × Rng :=
  let m := bernoulli mutation_prob g
  if m.1 then
    let f := bernoulli (1/2) m.2
    (if f.1 then p * (1 - mutation_shift) + mutation_shift
     else p * (1 - mutation_shift), f.2)
  else (p, m.2)

/-- The inner accumulation of the `PbilUpdate` position loop:
`p = prob[i] * (1 - rate)`, then `p += rate / best_count` once per set bit
among the `best_count` first (fittest) individuals. -/
def pbilBlend (sorted : Population (List Bool)) (rate : ℚ) (best_count : ℕ)
    (i : ℕ) (p0 : ℚ) : ℚ :=
  (List.range best_count).foldl
    (fun p j => if (sorted.getD j default).data.getD i false then
        p + rate / best_count else p)
    (p0 * (1 - rate))

/-- The `PbilUpdate` position loop over the probability vector, threading
the engine through the mutation draws and clamping each result to
`[lower_bound, upper_bound]`. -/
def pbilGo (sorted : Population (List Bool)) (rate : ℚ) (best_count : ℕ)
    (mutation_prob mutation_shift lower_bound upper_bound : ℚ) :
    List ℚ → ℕ → Rng → List ℚ × Rng
  | [], _, g => ([], g)
  | p0 :: rest, i, g =>
    let p1 := pbilBlend sorted rate best_count i p0
    let p2 := pbilMutStep mutation_prob mutation_shift p1 g
    let r := pbilGo sorted rate best_count mutation_prob mutation_shift
      lower_bound upper_bound rest (i + 1) p2.2
    (min (max p2.1 lower_bound) upper_bound :: r.1, r.2)

/-- `snf::PbilUpdate::operator()`: sort the population descending by
fitness, then update every position of the probability vector. -/
def PbilUpdate (rate : ℚ) (best_count : ℕ)
    (mutation_prob mutation_shift lower_bound upper_bound : ℚ)
    (prob : List ℚ) (pop : Population (List Bool)) (g : Rng) : List ℚ × Rng :=
  pbilGo (sortDesc pop) rate best_count mutation_prob mutation_shift
    lower_bound upper_bound prob 0 g

/-! ### Claim C5: the PBIL distribution update -/

/-- Counterexample to C5 as stated: with `prob = [1/2]`, learning rate 0,
`mutation_prob = 1` and `mutation_shift = 1/10`, the update yields `11/20`
(`1/2 · (1 - 1/10) + 1/10`), which is none of the claim's
"blend ± mutation_shift" outcomes `2/5`, `1/2` or `3/5`: the code rescales
by `1 - mutation_shift` before conditionally adding `mutation_shift`, it
does not add `±mutation_shift`. -/
theorem pbilUpdate_cex :
    (PbilUpdate 0 1 1 (1/10) 0 1 [1/2] [⟨[false], 1⟩] ⟨[0, 0], []⟩).1 = [11/20] ∧
    (11/20 : ℚ) ≠ 1/2 - 1/10 ∧ (11/20 : ℚ) ≠ 1/2 ∧ (11/20 : ℚ) ≠ 1/2 + 1/10 := by
  refine ⟨?_, by norm_num, by norm_num, by norm_num⟩
  norm_num [PbilUpdate, pbilGo, pbilBlend, pbilMutStep, bernoulli, nextRat,
    sortDesc]

/-- Specification-side description of one PBIL update, with the spec's
nudge corrected to the multiplicative rescale the code performs: pointwise,
the new probability is the clamp to `[lb, ub]` of `mut(blend)` where
`blend = old · (1 - rate) + rate · freq`, `freq` is the frequency of set
bits at this position among the `best_count` fittest individuals, and
`mut` rescales by `1 - mutation_shift` and then adds `mutation_shift` or
nothing (each with probability 1/2) when a `mutation_prob` draw fires. -/
def pbilSpecGo (sorted : Population (List Bool)) (rate : ℚ) (best_count : ℕ)
    (mp ms lb ub : ℚ) : List ℚ → ℕ → Rng → List ℚ × Rng
  | [], _, g => ([], g)
  | p0 :: rest, i, g =>
    let freq : ℚ :=
      ((sorted.take best_count).countP (fun ind => ind.data.getD i false) : ℚ) /
        best_count
    let blend := p0 * (1 - rate) + rate * freq
    let m := bernoulli mp g
    let q : ℚ × Rng :=
      if m.1 then
        let f := bernoulli (1/2) m.2
        (if f.1 then blend * (1 - ms) + ms else blend * (1 - ms), f.2)
      else (blend, m.2)
    let r := pbilSpecGo sorted rate best_count mp ms lb ub rest (i + 1) q.2
    (min (max q.1 lb) ub :: r.1, r.2)

theorem pbilBlend_foldl (sorted : Population (List Bool)) (lr : ℚ) (i : ℕ) :
    ∀ (m : ℕ) (init : ℚ),
      (List.range m).foldl
        (fun p j => if (sorted.getD j default).data.getD i false then p + lr else p)
        init =
      init + lr * ((sorted.take m).countP (fun ind => ind.data.getD i false) : ℚ) := by
  intro m
  induction m with
  | zero => intro init; simp
  | succ m ih =>
    intro init
    rw [List.range_succ, List.foldl_append]
    by_cases hm : m < sorted.length
    · have htake : (sorted.take (m + 1)).countP
          (fun ind => ind.data.getD i false) =
          (sorted.take m).countP (fun ind => ind.data.getD i false) +
          (if (sorted.getD m default).data.getD i false then 1 else 0) := by
        rw [List.take_succ, List.countP_append]
        congr 1
        rw [List.getElem?_eq_getElem hm]
        rw [List.getD_eq_getElem sorted default hm]
        by_cases hbit : sorted[m].data.getD i false
        · simp [hbit, List.countP_cons]
        · simp [hbit, List.countP_cons]
      rw [ih, htake]
      by_cases hbit : (sorted.getD m default).data.getD i false
      · simp only [List.foldl_cons, List.foldl_nil, hbit, if_true]
        push_cast
        ring
      · simp only [List.foldl_cons, List.foldl_nil, hbit, Bool.false_eq_true,
          if_false, add_zero]
    · have hdef : sorted.getD m default = default :=
        List.getD_eq_default sorted default (by omega)
      have htake1 : sorted.take (m + 1) = sorted := List.take_of_length_le (by omega)
      have htake0 : sorted.take m = sorted := List.take_of_length_le (by omega)
      have hfalse : (sorted.getD m default).data.getD i false = false := by
        rw [hdef]
        rfl
      rw [ih, htake1, htake0]
      simp only [List.foldl_cons, List.foldl_nil, hfalse, Bool.false_eq_true,
        if_false]

theorem pbilBlend_eq (sorted : Population (List Bool)) (rate : ℚ)
    (best_count : ℕ) (i : ℕ) (p0 : ℚ) :
    pbilBlend sorted rate best_count i p0 =
      p0 * (1 - rate) + rate *
        (((sorted.take best_count).countP
            (fun ind => ind.data.getD i false) : ℚ) / best_count) := by
  unfold pbilBlend
  rw [pbilBlend_foldl]
  ring

theorem pbilGo_eq_spec (sorted : Population (List Bool)) (rate : ℚ)
    (best_count : ℕ) (mp ms lb ub : ℚ) :
    ∀ (prob : List ℚ) (i : ℕ) (g : Rng),
      pbilGo sorted rate best_count mp ms lb ub prob i g =
        pbilSpecGo sorted rate best_count mp ms lb ub prob i g := by
  intro prob
  induction prob with
  | nil => intro i g; rfl
  | cons p0 rest ih =>
    intro i g
    simp only [pbilGo, pbilSpecGo, pbilMutStep, pbilBlend_eq, ih]

/-- C5 (amended): the PBIL distribution update equals its specification-side
description: the population is sorted descending by fitness; each position's
probability becomes the clamp to `[lower_bound, upper_bound]` of the blend
`old · (1 - rate) + rate · freq` (freq = frequency of set bits among the
top `best_count` of the sorted population), where with probability
`mutation_prob` the blend is first rescaled by `1 - mutation_shift` and
then, with probability 1/2 each, `mutation_shift` is added or not. -/
theorem pbilUpdate_spec (rate : ℚ) (best_count : ℕ) (mp ms lb ub : ℚ)
    (prob : List ℚ) (pop : Population (List Bool)) (g : Rng) :
    PbilUpdate rate best_count mp ms lb ub prob pop g =
      pbilSpecGo (sortDesc pop) rate best_count mp ms lb ub prob 0 g ∧
    List.Perm (sortDesc pop) pop ∧ List.Sorted fitGe (sortDesc pop) :=
  ⟨pbilGo_eq_spec (sortDesc pop) rate best_count mp ms lb ub prob 0 g,
   sortDesc_perm pop, sortDesc_sorted pop⟩

/-! ### migration.h

An `Island` couples a population with its GA configuration; migration only
touches the `pop` fields, so the island vector is embedded as the list of
island populations. -/

/-- The total multiset of individuals across all islands. -/
def totalPop (islands : List (Population T)) : Multiset (Individual T) :=
  (islands.map (fun p => (p : Multiset (Individual T)))).sum

/-- The per-migrant loop of `MigrationRandom`: draw a target in `[1, n-1]`
(redirected to 0 when it names the source), `push_back` the migrant there. -/
def distribute (i n : ℕ) :
    List (Individual T) → List (Population T) → Rng → List (Population T) × Rng
  | [], islands, g => (islands, g)
  | x :: xs, islands, g =>
    let p := uniformInt 1 (n - 1) g
    let idx := if p.1 = i then 0 else p.1
    distribute i n xs (islands.set idx ((islands.getD idx []) ++ [x])) p.2

/-- One iteration of the `MigrationRandom` island loop: shuffle island `i`'s
population in place, push its last `count` individuals to drawn targets,
then erase them from the source. -/
def migRandomStep [Inhabited T] (size : SelectionSize) (n i : ℕ)
    (islands : List (Population T)) (g : Rng) : List (Population T) × Rng :=
  let src := islands.getD i []
  let sh := shuffle src g
  let count := size.apply sh.1.length
  let moved := sh.1.drop (sh.1.length - count)
  let islandsA := islands.set i sh.1
  let d := distribute i n moved islandsA sh.2
  (d.1.set i ((d.1.getD i []).take (sh.1.length - count)), d.2)

/-- The `MigrationRandom` island loop over the island indices. -/
def migRandomGo [Inhabited T] (size : SelectionSize) (n : ℕ) :
    List ℕ → List (Population T) → Rng → List (Population T) × Rng
  | [], islands, g => (islands, g)
  | i :: rest, islands, g =>
    let r := migRandomStep size n i islands g
    migRandomGo size n rest r.1 r.2

/-- `snf::MigrationRandom::operator()`. -/
def MigrationRandom [Inhabited T] (size : SelectionSize)
    (islands : List (Population T)) (g : Rng) : List (Population T) × Rng :=
  migRandomGo size islands.length (List.range islands.length) islands g

/-- One iteration of the `MigrationRing` island loop: shuffle island `i`'s
population in place, move its last `count` individuals to its ring
successor, then erase them from the source. -/
def migRingStep [Inhabited T] (size : SelectionSize) (n i : ℕ)
    (islands : List (Population T)) (g : Rng) : List (Population T) × Rng :=
  let src := islands.getD i []
  let sh := shuffle src g
  let index := if i + 1 ≥ n then 0 else i + 1
  let count := size.apply sh.1.length
  let moved := sh.1.drop (sh.1.length - count)
  let islandsA := islands.set i sh.1
  let islandsB := islandsA.set index ((islandsA.getD index []) ++ moved)
  (islandsB.set i ((islandsB.getD i []).take (sh.1.length - count)), sh.2)

/-- The `MigrationRing` island loop over the island indices. -/
def migRingGo [Inhabited T] (size : SelectionSize) (n : ℕ) :
    List ℕ → List (Population T) → Rng → List (Population T) × Rng
  | [], islands, g => (islands, g)
  | i :: rest, islands, g =>
    let r := migRingStep size n i islands g
    migRingGo size n rest r.1 r.2

/-- `snf::MigrationRing::operator()`. -/
def MigrationRing [Inhabited T] (size : SelectionSize)
    (islands : List (Population T)) (g : Rng) : List (Population T) × Rng :=
  migRingGo size islands.length (List.range islands.length) islands g

/-! ### Claim C9: migration preserves the total multiset of individuals -/

theorem totalPop_cons (p : Population T) (rest : List (Population T)) :
    totalPop (p :: rest) = (p : Multiset (Individual T)) + totalPop rest := by
  simp [totalPop]

theorem totalPop_set (islands : List (Population T)) (i : ℕ) (p : Population T)
    (hi : i < islands.length) :
    totalPop (islands.set i p) + ((islands.getD i []) : Multiset (Individual T)) =
      totalPop islands + (p : Multiset (Individual T)) := by
  induction islands generalizing i with
  | nil => simp at hi
  | cons q rest ih =>
    cases i with
    | zero =>
      simp only [List.set_cons_zero, List.getD_cons_zero, totalPop_cons]
      abel
    | succ k =>
      simp only [List.set_cons_succ, List.getD_cons_succ, totalPop_cons]
      have := ih k (by simpa using hi)
      calc (q : Multiset (Individual T)) + totalPop (rest.set k p) +
            ((rest.getD k []) : Multiset (Individual T))
          = (q : Multiset (Individual T)) +
            (totalPop (rest.set k p) + ((rest.getD k []) : Multiset (Individual T))) := by
            abel
        _ = (q : Multiset (Individual T)) + (totalPop rest + (p : Multiset (Individual T))) := by
            rw [this]
        _ = (q : Multiset (Individual T)) + totalPop rest + (p : Multiset (Individual T)) := by
            abel

theorem coe_append (s t : List (Individual T)) :
    ((s ++ t : List (Individual T)) : Multiset (Individual T)) =
      (s : Multiset (Individual T)) + (t : Multiset (Individual T)) := rfl

theorem distribute_facts (i n : ℕ) (hn : 2 ≤ n) :
    ∀ (moved : List (Individual T)) (islands : List (Population T)) (g : Rng),
      islands.length = n →
      totalPop (distribute i n moved islands g).1 =
          totalPop islands + (moved : Multiset (Individual T)) ∧
      (distribute i n moved islands g).1.length = n ∧
      (distribute i n moved islands g).1.getD i [] = islands.getD i [] := by
  intro moved
  induction moved with
  | nil => intro islands g hlen; refine ⟨by simp [distribute], hlen, rfl⟩
  | cons x xs ih =>
    intro islands g hlen
    have hlo : 1 ≤ (uniformInt 1 (n - 1) g).1 := by
      simp only [uniformInt]
      omega
    have hhi : (uniformInt 1 (n - 1) g).1 ≤ n - 1 :=
      uniformInt_le 1 (n - 1) g (by omega)
    set idx := if (uniformInt 1 (n - 1) g).1 = i then 0
      else (uniformInt 1 (n - 1) g).1 with hidx_def
    have hidx_lt : idx < n := by
      rw [hidx_def]
      split <;> omega
    have hidx_ne : idx ≠ i := by
      rw [hidx_def]
      split
      · omega
      · intro hc
        omega
    have hset_len : (islands.set idx ((islands.getD idx []) ++ [x])).length = n := by
      simp [hlen]
    have hrec := ih (islands.set idx ((islands.getD idx []) ++ [x]))
      (uniformInt 1 (n - 1) g).2 hset_len
    have htot : totalPop (islands.set idx ((islands.getD idx []) ++ [x])) =
        totalPop islands + (([x] : List (Individual T)) : Multiset (Individual T)) := by
      have h1 := totalPop_set islands idx ((islands.getD idx []) ++ [x])
        (by omega)
      have h2 : (((islands.getD idx []) ++ [x]) : Multiset (Individual T)) =
          ((islands.getD idx []) : Multiset (Individual T)) +
            (([x] : List (Individual T)) : Multiset (Individual T)) :=
        coe_append _ _
      rw [h2] at h1
      have h3 : totalPop (islands.set idx ((islands.getD idx []) ++ [x])) +
          ((islands.getD idx []) : Multiset (Individual T)) =
          totalPop islands + (([x] : List (Individual T)) : Multiset (Individual T)) +
            ((islands.getD idx []) : Multiset (Individual T)) := by
        rw [h1]
        abel
      exact add_right_cancel h3
    refine ⟨?_, ?_, ?_⟩
    · show totalPop (distribute i n xs (islands.set idx ((islands.getD idx []) ++ [x]))
        (uniformInt 1 (n - 1) g).2).1 = _
      rw [hrec.1, htot]
      have hxxs : ((x :: xs : List (Individual T)) : Multiset (Individual T)) =
          (([x] : List (Individual T)) : Multiset (Individual T)) +
            (xs : Multiset (Individual T)) := coe_append [x] xs
      rw [hxxs]
      abel
    · exact hrec.2.1
    · show (distribute i n xs (islands.set idx ((islands.getD idx []) ++ [x]))
        (uniformInt 1 (n - 1) g).2).1.getD i [] = _
      rw [hrec.2.2]
      exact getD_set_ne islands idx i _ [] hidx_ne

theorem kept_moved_partition (l : List (Individual T)) (c : ℕ) :
    ((l.take (l.length - c)) : Multiset (Individual T)) +
      ((l.drop (l.length - c)) : Multiset (Individual T)) =
      (l : Multiset (Individual T)) := by
  rw [← coe_append]
  congr 1
  exact List.take_append_drop (l.length - c) l

theorem migRandomStep_total [Inhabited T] (size : SelectionSize) (n i : ℕ)
    (islands : List (Population T)) (g : Rng)
    (hn : 2 ≤ n) (hlen : islands.length = n) (hi : i < n) :
    totalPop (migRandomStep size n i islands g).1 = totalPop islands ∧
    (migRandomStep size n i islands g).1.length = n := by
  set src := islands.getD i [] with hsrc_def
  set sh := shuffle src g with hsh_def
  have hperm : List.Perm sh.1 src := shuffle_perm src g
  have hco : (sh.1 : Multiset (Individual T)) = (src : Multiset (Individual T)) :=
    Multiset.coe_eq_coe.mpr hperm
  set count := size.apply sh.1.length with hcount_def
  set moved := sh.1.drop (sh.1.length - count) with hmoved_def
  set kept := sh.1.take (sh.1.length - count) with hkept_def
  have hA_len : (islands.set i sh.1).length = n := by simp [hlen]
  have hA_tot : totalPop (islands.set i sh.1) + (src : Multiset (Individual T)) =
      totalPop islands + (src : Multiset (Individual T)) := by
    have := totalPop_set islands i sh.1 (by omega)
    rw [← hsrc_def] at this
    rw [this, hco]
  have hA_tot' : totalPop (islands.set i sh.1) = totalPop islands :=
    add_right_cancel hA_tot
  have hd := distribute_facts i n hn moved (islands.set i sh.1) sh.2 hA_len
  have hd_i : (distribute i n moved (islands.set i sh.1) sh.2).1.getD i [] = sh.1 := by
    rw [hd.2.2]
    exact getD_set_self islands i sh.1 [] (by omega)
  constructor
  · show totalPop ((distribute i n moved (islands.set i sh.1) sh.2).1.set i
      (((distribute i n moved (islands.set i sh.1) sh.2).1.getD i []).take
        (sh.1.length - count))) = totalPop islands
    rw [hd_i]
    have hfin := totalPop_set (distribute i n moved (islands.set i sh.1) sh.2).1 i
      kept (by omega)
    rw [hd_i] at hfin
    have : totalPop ((distribute i n moved (islands.set i sh.1) sh.2).1.set i kept) +
        (sh.1 : Multiset (Individual T)) =
        totalPop islands + (sh.1 : Multiset (Individual T)) := by
      rw [hfin, hd.1, hA_tot']
      rw [← kept_moved_partition sh.1 count]
      abel
    exact add_right_cancel this
  · show ((distribute i n moved (islands.set i sh.1) sh.2).1.set i
      (((distribute i n moved (islands.set i sh.1) sh.2).1.getD i []).take
        (sh.1.length - count))).length = n
    simp [hd.2.1]

theorem migRingStep_total [Inhabited T] (size : SelectionSize) (n i : ℕ)
    (islands : List (Population T)) (g : Rng)
    (hn : 2 ≤ n) (hlen : islands.length = n) (hi : i < n) :
    totalPop (migRingStep size n i islands g).1 = totalPop islands ∧
    (migRingStep size n i islands g).1.length = n := by
  set src := islands.getD i [] with hsrc_def
  set sh := shuffle src g with hsh_def
  have hperm : List.Perm sh.1 src := shuffle_perm src g
  have hco : (sh.1 : Multiset (Individual T)) = (src : Multiset (Individual T)) :=
    Multiset.coe_eq_coe.mpr hperm
  set index := if i + 1 ≥ n then 0 else i + 1 with hindex_def
  have hindex_lt : index < n := by
    rw [hindex_def]; split <;> omega
  have hindex_ne : index ≠ i := by
    rw [hindex_def]
    split
    · omega
    · omega
  set count := size.apply sh.1.length with hcount_def
  set moved := sh.1.drop (sh.1.length - count) with hmoved_def
  set kept := sh.1.take (sh.1.length - count) with hkept_def
  have hA_len : (islands.set i sh.1).length = n := by simp [hlen]
  have hA_tot : totalPop (islands.set i sh.1) = totalPop islands := by
    have h := totalPop_set islands i sh.1 (by omega)
    rw [← hsrc_def, hco] at h
    exact add_right_cancel h
  have hB_tot : totalPop ((islands.set i sh.1).set index
      (((islands.set i sh.1).getD index []) ++ moved)) =
      totalPop islands + (moved : Multiset (Individual T)) := by
    have h := totalPop_set (islands.set i sh.1) index
      (((islands.set i sh.1).getD index []) ++ moved) (by omega)
    have h2 : ((((islands.set i sh.1).getD index []) ++ moved) :
        Multiset (Individual T)) =
        (((islands.set i sh.1).getD index []) : Multiset (Individual T)) +
          (moved : Multiset (Individual T)) := by simp
    rw [h2] at h
    have h3 : totalPop ((islands.set i sh.1).set index
        (((islands.set i sh.1).getD index []) ++ moved)) +
        (((islands.set i sh.1).getD index []) : Multiset (Individual T)) =
        totalPop islands + (moved : Multiset (Individual T)) +
          (((islands.set i sh.1).getD index []) : Multiset (Individual T)) := by
      rw [h, hA_tot]
      abel
    exact add_right_cancel h3
  have hB_i : ((islands.set i sh.1).set index
      (((islands.set i sh.1).getD index []) ++ moved)).getD i [] = sh.1 := by
    rw [getD_set_ne _ _ _ _ _ hindex_ne]
    exact getD_set_self islands i sh.1 [] (by omega)
  constructor
  · show totalPop (((islands.set i sh.1).set index
      (((islands.set i sh.1).getD index []) ++ moved)).set i
        ((((islands.set i sh.1).set index
          (((islands.set i sh.1).getD index []) ++ moved)).getD i []).take
            (sh.1.length - count))) = totalPop islands
    rw [hB_i]
    have hfin := totalPop_set ((islands.set i sh.1).set index
      (((islands.set i sh.1).getD index []) ++ moved)) i kept (by simp [hA_len]; omega)
    rw [hB_i] at hfin
    have : totalPop ((((islands.set i sh.1).set index
        (((islands.set i sh.1).getD index []) ++ moved))).set i kept) +
        (sh.1 : Multiset (Individual T)) =
        totalPop islands + (sh.1 : Multiset (Individual T)) := by
      rw [hfin, hB_tot]
      rw [← kept_moved_partition sh.1 count]
      abel
    exact add_right_cancel this
  · show (((islands.set i sh.1).set index
      (((islands.set i sh.1).getD index []) ++ moved)).set i
        ((((islands.set i sh.1).set index
          (((islands.set i sh.1).getD index []) ++ moved)).getD i []).take
            (sh.1.length - count))).length = n
    simp [hlen]

theorem migRandomGo_total [Inhabited T] (size : SelectionSize) (n : ℕ) (hn : 2 ≤ n) :
    ∀ (idxs : List ℕ) (islands : List (Population T)) (g : Rng),
      islands.length = n → (∀ j ∈ idxs, j < n) →
      totalPop (migRandomGo size n idxs islands g).1 = totalPop islands := by
  intro idxs
  induction idxs with
  | nil => intro islands g _ _; rfl
  | cons i rest ih =>
    intro islands g hlen hall
    have hi : i < n := hall i (by simp)
    have hstep := migRandomStep_total size n i islands g hn hlen hi
    have hrec := ih (migRandomStep size n i islands g).1
      (migRandomStep size n i islands g).2 hstep.2
      (fun j hj => hall j (by simp [hj]))
    show totalPop (migRandomGo size n rest (migRandomStep size n i islands g).1
      (migRandomStep size n i islands g).2).1 = totalPop islands
    rw [hrec, hstep.1]

theorem migRingGo_total [Inhabited T] (size : SelectionSize) (n : ℕ) (hn : 2 ≤ n) :
    ∀ (idxs : List ℕ) (islands : List (Population T)) (g : Rng),
      islands.length = n → (∀ j ∈ idxs, j < n) →
      totalPop (migRingGo size n idxs islands g).1 = totalPop islands := by
  intro idxs
  induction idxs with
  | nil => intro islands g _ _; rfl
  | cons i rest ih =>
    intro islands g hlen hall
    have hi : i < n := hall i (by simp)
    have hstep := migRingStep_total size n i islands g hn hlen hi
    have hrec := ih (migRingStep size n i islands g).1
      (migRingStep size n i islands g).2 hstep.2
      (fun j hj => hall j (by simp [hj]))
    show totalPop (migRingGo size n rest (migRingStep size n i islands g).1
      (migRingStep size n i islands g).2).1 = totalPop islands
    rw [hrec, hstep.1]

/-- C9: for at least two islands, both migration operators preserve the
total multiset of individuals across all islands — every migrated
individual leaves its source island and lands in exactly one other island,
none is duplicated or lost. -/
theorem migration_preserves_total {T : Type} [Inhabited T] (size : SelectionSize)
    (islands : List (Population T)) (g g' : Rng) (hn : 2 ≤ islands.length) :
    totalPop (MigrationRandom size islands g).1 = totalPop islands ∧
    totalPop (MigrationRing size islands g').1 = totalPop islands := by
  constructor
  · exact migRandomGo_total size islands.length hn (List.range islands.length)
      islands g rfl (fun j hj => List.mem_range.mp hj)
  · exact migRingGo_total size islands.length hn (List.range islands.length)
      islands g' rfl (fun j hj => List.mem_range.mp hj)

/-- Witness for C9 on two concrete 2-individual islands (move 1 per
island). -/
theorem migration_preserves_total_witness :
    totalPop (MigrationRandom ⟨1, 0⟩
      [[(⟨10, 1⟩ : Individual ℕ), ⟨11, 2⟩], [⟨20, 3⟩, ⟨21, 4⟩]] ⟨[], [0, 0]⟩).1 =
      totalPop [[(⟨10, 1⟩ : Individual ℕ), ⟨11, 2⟩], [⟨20, 3⟩, ⟨21, 4⟩]] ∧
    totalPop (MigrationRing ⟨1, 0⟩
      [[(⟨10, 1⟩ : Individual ℕ), ⟨11, 2⟩], [⟨20, 3⟩, ⟨21, 4⟩]] ⟨[], [0, 0]⟩).1 =
      totalPop [[(⟨10, 1⟩ : Individual ℕ), ⟨11, 2⟩], [⟨20, 3⟩, ⟨21, 4⟩]] :=
  migration_preserves_total ⟨1, 0⟩
    [[(⟨10, 1⟩ : Individual ℕ), ⟨11, 2⟩], [⟨20, 3⟩, ⟨21, 4⟩]]
    ⟨[], [0, 0]⟩ ⟨[], [0, 0]⟩ (by simp)

end Metasinf
